import Mathlib

set_option linter.unusedSectionVars false
set_option linter.unnecessarySimpa false

/-!
Verification development for the `cache_rust` repository.

The repository implements a fixed-capacity LRU cache (`src/cache.rs`)
built on a contiguous arena (`Vec<Node>`) with index-based doubly linked
ordering, a `HashMap` from keys to arena slots, and a newline-delimited
`key=value` persistence codec (`src/persistence.rs`).

Shallow embedding conventions:
* `Vec<Node<K, V>>` becomes `List (Node K V)`; indexing `self.arena[i]`
  becomes `aget a i` (total via a default, faithful on the in-bounds,
  non-panicking path that the cache invariant guarantees), field
  assignment becomes `amod`, and `Vec::swap_remove` becomes `swapRemove`.
* `HashMap<K, usize>` becomes an association list `List (K × Nat)` with
  `mapGet` / `mapInsert` / `mapRemove` mirroring `get` / `insert` / `remove`.
* Rust strings are modelled as `List Char`; `split_once('=')` becomes
  `splitOnce '='`, `BufRead::lines` becomes `linesOf`, and `writeln!`
  appends `key ++ '=' :: value ++ ['\n']` to the file contents.
* File I/O is modelled by passing the result of `File::open` explicitly
  as an `Except IOErr (List Char)` value.
* The unbounded `while let` walk of `save_to_file` is modelled with fuel
  `arena.length`, which is exactly the number of iterations the loop
  performs on a well-formed cache.
-/

namespace CacheRust

/-- A node of the arena, mirroring `Node<K, V>` in `src/cache.rs`:
data plus the indices of the two neighbours of the doubly linked
recency list (`prev` toward more recent, `next` toward older). -/
structure Node (K V : Type) where
  key : K
  value : V
  prev : Option Nat
  next : Option Nat
deriving DecidableEq

instance {K V : Type} [Inhabited K] [Inhabited V] : Inhabited (Node K V) :=
  ⟨⟨default, default, none, none⟩⟩

/-- The LRU cache state, mirroring `LruCache<K, V>` in `src/cache.rs`.
The `HashMap<K, usize>` directory is modelled as an association list. -/
structure LruCache (K V : Type) where
  capacity : Nat
  map : List (K × Nat)
  arena : List (Node K V)
  head : Option Nat
  tail : Option Nat
deriving DecidableEq

/-- `HashMap::get`: first binding of the key, if any. -/
def mapGet {K : Type} [DecidableEq K] (m : List (K × Nat)) (k : K) : Option Nat :=
  match m with
  | [] => none
  | (k', v) :: rest => if k' = k then some v else mapGet rest k

/-- `HashMap::insert`: replace the binding of the key in place, or append it. -/
def mapInsert {K : Type} [DecidableEq K] (m : List (K × Nat)) (k : K) (v : Nat) :
    List (K × Nat) :=
  match m with
  | [] => [(k, v)]
  | (k', v') :: rest => if k' = k then (k, v) :: rest else (k', v') :: mapInsert rest k v

/-- `HashMap::remove`: drop the first binding of the key. -/
def mapRemove {K : Type} [DecidableEq K] (m : List (K × Nat)) (k : K) : List (K × Nat) :=
  match m with
  | [] => []
  | (k', v') :: rest => if k' = k then rest else (k', v') :: mapRemove rest k

/-- Arena read `self.arena[i]`, total via the default node. -/
def aget {α : Type} [Inhabited α] (a : List α) (i : Nat) : α :=
  a.getD i default

/-- Arena in-place update `self.arena[i].field = v`; no-op out of bounds
(the Rust code would panic there, a path never reached by the cache). -/
def amod {α : Type} (a : List α) (i : Nat) (f : α → α) : List α :=
  match a, i with
  | [], _ => []
  | x :: xs, 0 => f x :: xs
  | x :: xs, n + 1 => x :: amod xs n f

/-- `Vec::swap_remove i`: overwrite position `i` with the last element,
then drop the last position. -/
def swapRemove {α : Type} (a : List α) (i : Nat) : List α :=
  match a.getLast? with
  | none => []
  | some x => (a.set i x).dropLast

namespace LruCache

variable {K V : Type} [DecidableEq K] [Inhabited K] [Inhabited V]

/-- `LruCache::new` (lines 74-83 of `src/cache.rs`): empty cache of the
given capacity.  The source asserts `capacity > 0`; theorems about
construction carry that precondition as a hypothesis. -/
def new (capacity : Nat) : LruCache K V :=
  { capacity := capacity, map := [], arena := [], head := none, tail := none }

/-- `LruCache::len` (lines 145-147): number of stored entries. -/
def len (c : LruCache K V) : Nat :=
  c.arena.length

/-- `LruCache::move_to_head` (lines 157-185): detach the node at `index`
from the chain and relink it as the new head; no-op if it already is
the head. -/
def move_to_head (c : LruCache K V) (index : Nat) : LruCache K V :=
  if some index = c.head then c
  else
    let prev_idx := (aget c.arena index).prev
    let next_idx := (aget c.arena index).next
    let a1 := match prev_idx with
      | some prev => amod c.arena prev (fun nd => { nd with next := next_idx })
      | none => c.arena
    let a2 := match next_idx with
      | some next => amod a1 next (fun nd => { nd with prev := prev_idx })
      | none => a1
    let tail1 := if some index = c.tail then prev_idx else c.tail
    let a3 := match c.head with
      | some old_head => amod a2 old_head (fun nd => { nd with prev := some index })
      | none => a2
    let a4 := amod a3 index (fun nd => { nd with next := c.head, prev := none })
    { c with arena := a4, head := some index, tail := tail1 }

/-- `LruCache::remove_lru` (lines 195-237): unlink the tail, drop its key
from the map, physically reclaim its slot with `swap_remove`, and patch
the moved entry's map binding, neighbour links and `head`/`tail`. -/
def remove_lru (c : LruCache K V) : LruCache K V :=
  match c.tail with
  | none => c
  | some tail_idx =>
    let key_to_remove := (aget c.arena tail_idx).key
    let map1 := mapRemove c.map key_to_remove
    let tail1 := (aget c.arena tail_idx).prev
    let a1 := match tail1 with
      | some new_tail => amod c.arena new_tail (fun nd => { nd with next := none })
      | none => c.arena
    let head1 := match tail1 with
      | some _ => c.head
      | none => none
    let a2 := swapRemove a1 tail_idx
    if tail_idx < a2.length then
      let moved_key := (aget a2 tail_idx).key
      let map2 := mapInsert map1 moved_key tail_idx
      let prev := (aget a2 tail_idx).prev
      let next := (aget a2 tail_idx).next
      let a3 := match prev with
        | some p => amod a2 p (fun nd => { nd with next := some tail_idx })
        | none => a2
      let a4 := match next with
        | some n => amod a3 n (fun nd => { nd with prev := some tail_idx })
        | none => a3
      let head2 := if head1 = some a2.length then some tail_idx else head1
      let tail2 := if tail1 = some a2.length then some tail_idx else tail1
      { c with map := map2, arena := a4, head := head2, tail := tail2 }
    else
      { c with map := map1, arena := a2, head := head1, tail := tail1 }

/-- `LruCache::get` (lines 93-99): on a hit promote the node to head and
return its value, on a miss return `none` and the unchanged state. -/
def get (c : LruCache K V) (key : K) : Option V × LruCache K V :=
  match mapGet c.map key with
  | some index =>
    let c1 := move_to_head c index
    (some (aget c1.arena index).value, c1)
  | none => (none, c)

/-- The insertion block of `LruCache::put` (lines 122-141): push a fresh
head node at the end of the arena and register it in the map. -/
def insertNew (c : LruCache K V) (key : K) (value : V) : LruCache K V :=
  let index := c.arena.length
  let node : Node K V := { key := key, value := value, prev := none, next := c.head }
  let a1 := c.arena ++ [node]
  let map1 := mapInsert c.map key index
  let a2 := match c.head with
    | some old_head_idx => amod a1 old_head_idx (fun nd => { nd with prev := some index })
    | none => a1
  { c with
    map := map1
    arena := a2
    head := some index
    tail := if c.tail = none then some index else c.tail }

/-- `LruCache::put` (lines 110-143): update-and-promote an existing key,
or evict the tail when at capacity and insert the new key as head. -/
def put (c : LruCache K V) (key : K) (value : V) : LruCache K V :=
  match mapGet c.map key with
  | some index =>
    move_to_head
      { c with arena := amod c.arena index (fun nd => { nd with value := value }) } index
  | none =>
    insertNew (if c.capacity ≤ c.arena.length then remove_lru c else c) key value

end LruCache

/-- Model of `std::io::Error` kinds distinguished by the code: a missing
file versus any other open failure. -/
inductive IOErr where
  | notFound
  | permissionDenied
  | other
deriving DecidableEq

/-- Rust `str::split_once(sep)`: split at the first occurrence of `sep`,
or `none` when `sep` does not occur. -/
def splitOnce (sep : Char) : List Char → Option (List Char × List Char)
  | [] => none
  | ch :: rest =>
    if ch = sep then some ([], rest)
    else match splitOnce sep rest with
      | some (k, v) => some (ch :: k, v)
      | none => none

/-- The CRLF strip of `BufRead::lines`: after the `'\n'` is popped, a
`'\r'` directly before it is popped too.  The argument is the line
accumulated in reverse, so that `'\r'` is its head. -/
def dropCR : List Char → List Char
  | [] => []
  | c :: rest => if c = '\r' then rest else c :: rest

/-- Helper for `linesOf`; `acc` holds the current line reversed. -/
def linesAux : List Char → List Char → List (List Char)
  | [], acc => match acc with
    | [] => []
    | _ => [acc.reverse]
  | ch :: rest, acc =>
    if ch = '\n' then (dropCR acc).reverse :: linesAux rest []
    else linesAux rest (ch :: acc)

/-- Rust `BufRead::lines` on the whole file contents: split at every
newline, stripping a `'\r'` directly before the `'\n'` (CRLF); a final
fragment without a trailing newline still yields a line and keeps any
trailing `'\r'`, and a trailing newline does not produce an empty final
line. -/
def linesOf (s : List Char) : List (List Char) :=
  linesAux s []

/-- Fold of `put` over a list of key/value pairs (a sequence of `put`
operations applied in order). -/
def putList {K V : Type} [DecidableEq K] [Inhabited K] [Inhabited V]
    (c : LruCache K V) (ps : List (K × V)) : LruCache K V :=
  ps.foldl (fun c p => c.put p.1 p.2) c

/-- One iteration of the driver loop in `src/bin/main.rs` (lines 9-16):
look the key up (which promotes it on a hit), and on a miss insert it
with `put`; the scenario of the spec's walkthrough uses the key itself
as the stored value. -/
def touchPut {K : Type} [DecidableEq K] [Inhabited K] (c : LruCache K K) (k : K) :
    LruCache K K :=
  let r := c.get k
  match r.1 with
  | some _ => r.2
  | none => r.2.put k k

/-- The driver loop of `src/bin/main.rs`: fold `touchPut` over the key
sequence. -/
def runKeys {K : Type} [DecidableEq K] [Inhabited K] (c : LruCache K K) (ks : List K) :
    LruCache K K :=
  ks.foldl touchPut c

/-- Walk the chain from a starting index following `next`, with fuel. -/
def walkNextAux {K V : Type} [Inhabited K] [Inhabited V] (a : List (Node K V)) :
    Nat → Option Nat → List Nat
  | 0, _ => []
  | _ + 1, none => []
  | fuel + 1, some idx => idx :: walkNextAux a fuel (aget a idx).next

/-- Walk the chain from a starting index following `prev`, with fuel;
this is the traversal of `save_to_file` (lines 45-50 of
`src/persistence.rs`). -/
def walkPrevAux {K V : Type} [Inhabited K] [Inhabited V] (a : List (Node K V)) :
    Nat → Option Nat → List Nat
  | 0, _ => []
  | _ + 1, none => []
  | fuel + 1, some idx => idx :: walkPrevAux a fuel (aget a idx).prev

/-- Head-to-tail list of slot indices obtained by actually walking the
chain from `head`. -/
def orderIdx {K V : Type} [Inhabited K] [Inhabited V] (c : LruCache K V) : List Nat :=
  walkNextAux c.arena c.arena.length c.head

/-- Head-to-tail list of key/value pairs obtained by walking the chain. -/
def orderKV {K V : Type} [Inhabited K] [Inhabited V] (c : LruCache K V) : List (K × V) :=
  (orderIdx c).map (fun i => ((aget c.arena i).key, (aget c.arena i).value))

/-- Head-to-tail list of keys obtained by walking the chain. -/
def orderKeys {K V : Type} [Inhabited K] [Inhabited V] (c : LruCache K V) : List K :=
  (orderIdx c).map (fun i => (aget c.arena i).key)

/-- `LruCache::save_to_file` (lines 42-52 of `src/persistence.rs`):
the file contents produced by walking the chain from `tail` along
`prev` links, writing one `key=value` line per node.  The walk's fuel
`arena.length` is exactly the number of loop iterations performed on a
well-formed cache.  Strings are modelled as `List Char` (for
`K = V = String`, `Display` and `FromStr` are the identity). -/
def saveFile (c : LruCache (List Char) (List Char)) : List Char :=
  ((walkPrevAux c.arena c.arena.length c.tail).map
    (fun i => (aget c.arena i).key ++ '=' :: (aget c.arena i).value ++ ['\n'])).flatten

/-- The load loop of `LruCache::new_persistent` (lines 24-32 of
`src/persistence.rs`): each line with an `=` is split at the first `=`
and submitted via `put`; lines without `=` are skipped. -/
def loadLines (capacity : Nat) (ls : List (List Char)) :
    LruCache (List Char) (List Char) :=
  ls.foldl
    (fun c line =>
      match splitOnce '=' line with
      | some (k, v) => c.put k v
      | none => c)
    (LruCache.new capacity)

/-- `LruCache::new_persistent` (lines 19-35 of `src/persistence.rs`):
builds an empty cache, and replays the file through `put` only when
`File::open` succeeded (`if let Ok(file) = ...`); an open failure of
any kind is ignored and the function still returns `Ok`. -/
def new_persistent (capacity : Nat) (openResult : Except IOErr (List Char)) :
    Except IOErr (LruCache (List Char) (List Char)) :=
  match openResult with
  | Except.ok contents => Except.ok (loadLines capacity (linesOf contents))
  | Except.error _ => Except.ok (LruCache.new capacity)

/-- Key/value pairs read off along a given list of slot indices. -/
def absL {K V : Type} [Inhabited K] [Inhabited V] (c : LruCache K V) (is : List Nat) :
    List (K × V) :=
  is.map (fun i => ((aget c.arena i).key, (aget c.arena i).value))

/-- The key is bound in the cache's directory. -/
def present {K V : Type} [DecidableEq K] (c : LruCache K V) (k : K) : Prop :=
  (mapGet c.map k).isSome = true

instance {K V : Type} [DecidableEq K] (c : LruCache K V) (k : K) :
    Decidable (present c k) :=
  inferInstanceAs (Decidable (_ = true))

/-- Adjacency of two slots in the doubly linked chain: the left node's
`next` and the right node's `prev` point at each other. -/
def rel {K V : Type} [Inhabited K] [Inhabited V] (a : List (Node K V)) (i j : Nat) : Prop :=
  (aget a i).next = some j ∧ (aget a j).prev = some i

/-- Structural invariant of the cache, relative to the head-to-tail list
`is` of arena slots: `is` enumerates every arena slot exactly once, the
`prev`/`next` fields realise exactly the chain `is` with `head`/`tail`
at its two ends, and the map holds exactly one binding per slot, from
that slot's key to the slot. -/
structure WF {K V : Type} [DecidableEq K] [Inhabited K] [Inhabited V]
    (c : LruCache K V) (is : List Nat) : Prop where
  perm : is.Perm (List.range c.arena.length)
  chain : List.Chain' (rel c.arena) is
  fstPrev : ∀ i, is.head? = some i → (aget c.arena i).prev = none
  lstNext : ∀ i, is.getLast? = some i → (aget c.arena i).next = none
  headEq : c.head = is.head?
  tailEq : c.tail = is.getLast?
  mapsTo : ∀ i, i < c.arena.length → mapGet c.map (aget c.arena i).key = some i
  mapDom : ∀ k i, mapGet c.map k = some i → i < c.arena.length ∧ (aget c.arena i).key = k
  mapNodup : (c.map.map Prod.fst).Nodup

/-! Basic facts about the arena primitives. -/

theorem length_amod {α : Type} (a : List α) (i : Nat) (f : α → α) :
    (amod a i f).length = a.length := by
  induction a generalizing i with
  | nil => rfl
  | cons x xs ih =>
    cases i with
    | zero => rfl
    | succ n => simpa [amod] using ih n

theorem aget_amod_ne {α : Type} [Inhabited α] (a : List α) (i j : Nat) (f : α → α)
    (h : j ≠ i) : aget (amod a i f) j = aget a j := by
  induction a generalizing i j with
  | nil => rfl
  | cons x xs ih =>
    cases i with
    | zero =>
      cases j with
      | zero => exact absurd rfl h
      | succ m => simp [amod, aget]
    | succ n =>
      cases j with
      | zero => simp [amod, aget]
      | succ m =>
        simpa [amod, aget] using ih n m (fun e => h (by rw [e]))

theorem aget_amod_self {α : Type} [Inhabited α] (a : List α) (i : Nat) (f : α → α)
    (h : i < a.length) : aget (amod a i f) i = f (aget a i) := by
  induction a generalizing i with
  | nil => simp at h
  | cons x xs ih =>
    cases i with
    | zero => simp [amod, aget]
    | succ n => simpa [amod, aget] using ih n (by simpa using h)

theorem amod_out {α : Type} (a : List α) (i : Nat) (f : α → α)
    (h : a.length ≤ i) : amod a i f = a := by
  induction a generalizing i with
  | nil => rfl
  | cons x xs ih =>
    cases i with
    | zero => simp at h
    | succ n => simpa [amod] using ih n (by simpa using h)

theorem aget_append_lt {α : Type} [Inhabited α] (a b : List α) (i : Nat)
    (h : i < a.length) : aget (a ++ b) i = aget a i :=
  List.getD_append a b default i h

theorem aget_append_self {α : Type} [Inhabited α] (a : List α) (x : α) :
    aget (a ++ [x]) a.length = x := by
  show (a ++ [x]).getD a.length default = x
  rw [List.getD_append_right a [x] default a.length (Nat.le_refl _)]
  simp

theorem aget_out {α : Type} [Inhabited α] (a : List α) (i : Nat)
    (h : a.length ≤ i) : aget a i = default :=
  List.getD_eq_default a default h

theorem getLast?_eq_aget {α : Type} [Inhabited α] (a : List α) (h : a ≠ []) :
    a.getLast? = some (aget a (a.length - 1)) := by
  rw [List.getLast?_eq_getElem?, aget, List.getD_eq_getElem?_getD]
  have hlt : a.length - 1 < a.length := by
    cases a with
    | nil => simp at h
    | cons x xs => simp
  rw [List.getElem?_eq_getElem hlt]
  rfl

theorem length_swapRemove {α : Type} (a : List α) (i : Nat) (h : a ≠ []) :
    (swapRemove a i).length = a.length - 1 := by
  rcases ho : a.getLast? with _ | x
  · exact absurd (List.getLast?_eq_none_iff.mp ho) h
  · simp [swapRemove, ho]

theorem aget_swapRemove_ne {α : Type} [Inhabited α] (a : List α) (i j : Nat)
    (hj : j < a.length - 1) (hne : j ≠ i) : aget (swapRemove a i) j = aget a j := by
  have hnil : a ≠ [] := by
    intro e; rw [e] at hj; simp at hj
  rcases ho : a.getLast? with _ | x
  · exact absurd (List.getLast?_eq_none_iff.mp ho) hnil
  · have hjlen : j < a.length := Nat.lt_of_lt_of_le hj (Nat.sub_le _ _)
    simp only [swapRemove, ho]
    rw [List.dropLast_eq_take, aget, aget,
      List.getD_eq_getElem?_getD, List.getD_eq_getElem?_getD,
      List.getElem?_take_of_lt (by simpa using hj),
      List.getElem?_set_ne (by omega)]

theorem aget_swapRemove_self {α : Type} [Inhabited α] (a : List α) (i : Nat)
    (hi : i < a.length - 1) : aget (swapRemove a i) i = aget a (a.length - 1) := by
  have hnil : a ≠ [] := by
    intro e; rw [e] at hi; simp at hi
  rcases ho : a.getLast? with _ | x
  · exact absurd (List.getLast?_eq_none_iff.mp ho) hnil
  · have hx : some x = some (aget a (a.length - 1)) := by
      rw [← ho, getLast?_eq_aget a hnil]
    have hilen : i < a.length := Nat.lt_of_lt_of_le hi (Nat.sub_le _ _)
    simp only [swapRemove, ho]
    rw [List.dropLast_eq_take, aget,
      List.getD_eq_getElem?_getD,
      List.getElem?_take_of_lt (by simpa using hi),
      List.getElem?_set_self' ]
    simp only [List.getElem?_eq_getElem hilen, Option.map_some', Option.getD_some]
    exact (Option.some.injEq _ _).mp hx

/-! Basic facts about the association-list model of the `HashMap`. -/

section MapLemmas

variable {K : Type} [DecidableEq K]

theorem mapGet_mapInsert_self (m : List (K × Nat)) (k : K) (v : Nat) :
    mapGet (mapInsert m k v) k = some v := by
  induction m with
  | nil => simp [mapInsert, mapGet]
  | cons p rest ih =>
    by_cases h : p.1 = k
    · simp [mapInsert, mapGet, h]
    · simp [mapInsert, mapGet, h, ih]

theorem mapGet_mapInsert_ne (m : List (K × Nat)) (k k' : K) (v : Nat) (h : k' ≠ k) :
    mapGet (mapInsert m k v) k' = mapGet m k' := by
  have h' : ¬ k = k' := fun e => h e.symm
  induction m with
  | nil => simp [mapInsert, mapGet, h']
  | cons p rest ih =>
    by_cases hp : p.1 = k
    · simp [mapInsert, mapGet, hp, h']
    · by_cases hp' : p.1 = k'
      · simp [mapInsert, mapGet, hp, hp', h]
      · simp [mapInsert, mapGet, hp, hp', ih]

theorem mapGet_mapRemove_ne (m : List (K × Nat)) (k k' : K) (h : k' ≠ k) :
    mapGet (mapRemove m k) k' = mapGet m k' := by
  have h' : ¬ k = k' := fun e => h e.symm
  induction m with
  | nil => rfl
  | cons p rest ih =>
    by_cases hp : p.1 = k
    · simp [mapRemove, mapGet, hp, h']
    · by_cases hp' : p.1 = k'
      · simp [mapRemove, mapGet, hp, hp', h]
      · simp [mapRemove, mapGet, hp, hp', ih]

theorem mapGet_eq_none_of_not_memKeys (m : List (K × Nat)) (k : K)
    (h : k ∉ m.map Prod.fst) : mapGet m k = none := by
  induction m with
  | nil => rfl
  | cons p rest ih =>
    simp only [List.map_cons, List.mem_cons] at h
    push_neg at h
    have h1 : ¬ p.1 = k := fun e => h.1 e.symm
    simp [mapGet, h1, ih h.2]

theorem mapGet_mapRemove_self (m : List (K × Nat)) (k : K)
    (hnd : (m.map Prod.fst).Nodup) : mapGet (mapRemove m k) k = none := by
  induction m with
  | nil => rfl
  | cons p rest ih =>
    simp only [List.map_cons, List.nodup_cons] at hnd
    by_cases hp : p.1 = k
    · simp only [mapRemove, if_pos hp]
      exact mapGet_eq_none_of_not_memKeys rest k (hp ▸ hnd.1)
    · simp [mapRemove, mapGet, hp, ih hnd.2]

theorem memKeys_mapInsert (m : List (K × Nat)) (k k' : K) (v : Nat)
    (h : k' ∈ (mapInsert m k v).map Prod.fst) : k' = k ∨ k' ∈ m.map Prod.fst := by
  induction m with
  | nil => simpa [mapInsert] using h
  | cons p rest ih =>
    by_cases hp : p.1 = k
    · simp only [mapInsert, if_pos hp, List.map_cons, List.mem_cons] at h
      rcases h with h | h
      · exact Or.inl h
      · exact Or.inr (by simp [h])
    · simp only [mapInsert, if_neg hp, List.map_cons, List.mem_cons] at h
      rcases h with h | h
      · exact Or.inr (by simp [h])
      · rcases ih h with h' | h'
        · exact Or.inl h'
        · exact Or.inr (by simp [h'])

theorem nodupKeys_mapInsert (m : List (K × Nat)) (k : K) (v : Nat)
    (hnd : (m.map Prod.fst).Nodup) : ((mapInsert m k v).map Prod.fst).Nodup := by
  induction m with
  | nil => simp [mapInsert]
  | cons p rest ih =>
    simp only [List.map_cons, List.nodup_cons] at hnd
    by_cases hp : p.1 = k
    · simp only [mapInsert, if_pos hp, List.map_cons, List.nodup_cons]
      exact ⟨hp ▸ hnd.1, hnd.2⟩
    · simp only [mapInsert, if_neg hp, List.map_cons, List.nodup_cons]
      refine ⟨fun hmem => ?_, ih hnd.2⟩
      rcases memKeys_mapInsert rest k p.1 v hmem with h | h
      · exact hp h
      · exact hnd.1 h

theorem memKeys_mapRemove (m : List (K × Nat)) (k k' : K)
    (h : k' ∈ (mapRemove m k).map Prod.fst) : k' ∈ m.map Prod.fst := by
  induction m with
  | nil => simp [mapRemove] at h
  | cons p rest ih =>
    by_cases hp : p.1 = k
    · simp only [mapRemove, if_pos hp] at h
      exact List.mem_cons_of_mem _ h
    · simp only [mapRemove, if_neg hp, List.map_cons, List.mem_cons] at h
      rcases h with h | h
      · simp [h]
      · exact List.mem_cons_of_mem _ (ih h)

theorem nodupKeys_mapRemove (m : List (K × Nat)) (k : K)
    (hnd : (m.map Prod.fst).Nodup) : ((mapRemove m k).map Prod.fst).Nodup := by
  induction m with
  | nil => simp [mapRemove]
  | cons p rest ih =>
    simp only [List.map_cons, List.nodup_cons] at hnd
    by_cases hp : p.1 = k
    · simpa [mapRemove, hp] using hnd.2
    · simp only [mapRemove, if_neg hp, List.map_cons, List.nodup_cons]
      exact ⟨fun hmem => hnd.1 (memKeys_mapRemove rest k p.1 hmem), ih hnd.2⟩

theorem mapGet_isSome_iff_memKeys (m : List (K × Nat)) (k : K) :
    (mapGet m k).isSome = true ↔ k ∈ m.map Prod.fst := by
  induction m with
  | nil => simp [mapGet]
  | cons p rest ih =>
    by_cases hp : p.1 = k
    · simp [mapGet, hp]
    · have hp2 : ¬ k = p.1 := fun e => hp e.symm
      simp [mapGet, hp, ih, hp2]

end MapLemmas

/-! Chain and invariant helper lemmas. -/

theorem chain'_congr_mem {α : Type} {R S : α → α → Prop} {l : List α}
    (hrs : ∀ x ∈ l, ∀ y ∈ l, R x y → S x y) (hc : l.Chain' R) : l.Chain' S := by
  induction l with
  | nil => exact List.chain'_nil
  | cons x l ih =>
    rw [List.chain'_cons'] at hc ⊢
    refine ⟨fun y hy => ?_, ih (fun u hu w hw =>
      hrs u (List.mem_cons_of_mem _ hu) w (List.mem_cons_of_mem _ hw)) hc.2⟩
    have hyl : y ∈ l := by
      cases l with
      | nil => simp at hy
      | cons z zs =>
        simp only [List.head?_cons, Option.mem_some_iff] at hy
        subst hy
        exact List.mem_cons_self _ _
    exact hrs x (List.mem_cons_self _ _) y (List.mem_cons_of_mem _ hyl) (hc.1 y hy)

section CacheLemmas

variable {K V : Type} [DecidableEq K] [Inhabited K] [Inhabited V]

theorem WF.len_is {c : LruCache K V} {is : List Nat} (h : WF c is) :
    is.length = c.arena.length := by
  simpa using h.perm.length_eq

theorem WF.nodup {c : LruCache K V} {is : List Nat} (h : WF c is) : is.Nodup :=
  h.perm.symm.nodup (List.nodup_range _)

theorem WF.mem_lt {c : LruCache K V} {is : List Nat} (h : WF c is) {i : Nat}
    (hi : i ∈ is) : i < c.arena.length := by
  have := h.perm.mem_iff.mp hi
  simpa [List.mem_range] using this

theorem WF.lt_mem {c : LruCache K V} {is : List Nat} (h : WF c is) {i : Nat}
    (hi : i < c.arena.length) : i ∈ is :=
  h.perm.mem_iff.mpr (List.mem_range.mpr hi)

theorem WF.key_inj {c : LruCache K V} {is : List Nat} (h : WF c is) {i j : Nat}
    (hi : i < c.arena.length) (hj : j < c.arena.length)
    (hk : (aget c.arena i).key = (aget c.arena j).key) : i = j := by
  have h1 := h.mapsTo i hi
  have h2 := h.mapsTo j hj
  rw [hk] at h1
  rw [h1] at h2
  exact (Option.some.injEq _ _).mp h2

theorem present_iff {c : LruCache K V} {is : List Nat} (h : WF c is) (k : K) :
    present c k ↔ ∃ i, i ∈ is ∧ (aget c.arena i).key = k := by
  constructor
  · intro hp
    rcases Option.isSome_iff_exists.mp hp with ⟨i, hi⟩
    rcases h.mapDom k i hi with ⟨hlt, hkey⟩
    exact ⟨i, h.lt_mem hlt, hkey⟩
  · rintro ⟨i, hmem, hkey⟩
    have := h.mapsTo i (h.mem_lt hmem)
    rw [hkey] at this
    simp [present, this]

theorem memKeys_absL {c : LruCache K V} {is : List Nat} (k : K) :
    k ∈ (absL c is).map Prod.fst ↔ ∃ i, i ∈ is ∧ (aget c.arena i).key = k := by
  simp [absL, List.map_map]

/-! Preservation facts about `move_to_head` that need no invariant. -/

theorem aget_amod_key (a : List (Node K V)) (t j : Nat) (f : Node K V → Node K V)
    (hf : ∀ x, (f x).key = x.key) :
    (aget (amod a t f) j).key = (aget a j).key := by
  by_cases hj : j = t
  · subst hj
    by_cases ht : j < a.length
    · rw [aget_amod_self _ _ _ ht, hf]
    · rw [amod_out _ _ _ (Nat.le_of_not_lt ht)]
  · rw [aget_amod_ne _ _ _ _ hj]

theorem aget_amod_value (a : List (Node K V)) (t j : Nat) (f : Node K V → Node K V)
    (hf : ∀ x, (f x).value = x.value) :
    (aget (amod a t f) j).value = (aget a j).value := by
  by_cases hj : j = t
  · subst hj
    by_cases ht : j < a.length
    · rw [aget_amod_self _ _ _ ht, hf]
    · rw [amod_out _ _ _ (Nat.le_of_not_lt ht)]
  · rw [aget_amod_ne _ _ _ _ hj]

theorem aget_amod_link_key (a : List (Node K V)) (t j : Nat)
    (W : Node K V → V) (P N : Node K V → Option Nat) :
    (aget (amod a t
      (fun nd => { key := nd.key, value := W nd, prev := P nd, next := N nd })) j).key
      = (aget a j).key :=
  aget_amod_key _ _ _ _ (fun _ => rfl)

theorem aget_amod_link_value (a : List (Node K V)) (t j : Nat)
    (G : Node K V → K) (P N : Node K V → Option Nat) :
    (aget (amod a t
      (fun nd => { key := G nd, value := nd.value, prev := P nd, next := N nd })) j).value
      = (aget a j).value :=
  aget_amod_value _ _ _ _ (fun _ => rfl)

theorem aget_amod_keep_next (a : List (Node K V)) (t j : Nat)
    (G : Node K V → K) (W : Node K V → V) (P : Node K V → Option Nat) :
    (aget (amod a t
      (fun nd => { key := G nd, value := W nd, prev := P nd, next := nd.next })) j).next
      = (aget a j).next := by
  by_cases hj : j = t
  · subst hj
    by_cases ht : j < a.length
    · rw [aget_amod_self _ _ _ ht]
    · rw [amod_out _ _ _ (Nat.le_of_not_lt ht)]
  · rw [aget_amod_ne _ _ _ _ hj]

theorem aget_amod_keep_prev (a : List (Node K V)) (t j : Nat)
    (G : Node K V → K) (W : Node K V → V) (N : Node K V → Option Nat) :
    (aget (amod a t
      (fun nd => { key := G nd, value := W nd, prev := nd.prev, next := N nd })) j).prev
      = (aget a j).prev := by
  by_cases hj : j = t
  · subst hj
    by_cases ht : j < a.length
    · rw [aget_amod_self _ _ _ ht]
    · rw [amod_out _ _ _ (Nat.le_of_not_lt ht)]
  · rw [aget_amod_ne _ _ _ _ hj]

theorem mth_map (c : LruCache K V) (i : Nat) : (c.move_to_head i).map = c.map := by
  unfold LruCache.move_to_head
  split <;> rfl

theorem mth_capacity (c : LruCache K V) (i : Nat) :
    (c.move_to_head i).capacity = c.capacity := by
  unfold LruCache.move_to_head
  split <;> rfl

theorem mth_len (c : LruCache K V) (i : Nat) :
    (c.move_to_head i).arena.length = c.arena.length := by
  unfold LruCache.move_to_head
  split
  · rfl
  · simp only [length_amod]
    rcases (aget c.arena i).prev with _ | p <;>
      rcases (aget c.arena i).next with _ | n <;>
      rcases c.head with _ | oh <;>
      simp [length_amod]

theorem mth_key (c : LruCache K V) (i j : Nat) :
    (aget (c.move_to_head i).arena j).key = (aget c.arena j).key := by
  unfold LruCache.move_to_head
  split
  · rfl
  · simp only []
    rcases (aget c.arena i).prev with _ | p <;>
      rcases (aget c.arena i).next with _ | n <;>
      rcases c.head with _ | oh <;>
      simp only [aget_amod_link_key]

theorem mth_value (c : LruCache K V) (i j : Nat) :
    (aget (c.move_to_head i).arena j).value = (aget c.arena j).value := by
  unfold LruCache.move_to_head
  split
  · rfl
  · simp only []
    rcases (aget c.arena i).prev with _ | p <;>
      rcases (aget c.arena i).next with _ | n <;>
      rcases c.head with _ | oh <;>
      simp only [aget_amod_link_value]

theorem nodup_middle_parts {xs ys : List Nat} {i : Nat} (h : (xs ++ i :: ys).Nodup) :
    i ∉ xs ∧ i ∉ ys ∧ List.Disjoint xs ys ∧ xs.Nodup ∧ ys.Nodup := by
  have hmid : (i :: (xs ++ ys)).Nodup := List.nodup_middle.mp h
  rcases List.nodup_cons.mp hmid with ⟨hnotin, hrest⟩
  exact ⟨fun hm => hnotin (List.mem_append_left _ hm),
    fun hm => hnotin (List.mem_append_right _ hm),
    List.disjoint_of_nodup_append hrest,
    hrest.of_append_left, hrest.of_append_right⟩

theorem mth_wf {c : LruCache K V} {xs ys : List Nat} {i : Nat}
    (h : WF c (xs ++ i :: ys)) :
    WF (c.move_to_head i) (i :: (xs ++ ys)) := by
  rcases xs with _ | ⟨x0, xs'⟩
  · have hh : c.head = some i := by simpa using h.headEq
    have hmeq : c.move_to_head i = c := by
      unfold LruCache.move_to_head
      rw [if_pos hh.symm]
    rw [hmeq]
    simpa using h
  · -- the node really moves: collect facts, then rebuild the invariant
    have hhead : c.head = some x0 := by simpa using h.headEq
    have hilt : i < c.arena.length := h.mem_lt (by simp)
    have hx0lt : x0 < c.arena.length := h.mem_lt (by simp)
    rcases nodup_middle_parts h.nodup with ⟨hixs, hiys, hdisj, hxs_nd, hys_nd⟩
    have hine : ¬ some i = c.head := by
      rw [hhead]
      intro e
      cases Option.some.inj e
      exact hixs (List.mem_cons_self _ _)
    rcases hlx : (x0 :: xs').getLast? with _ | lx
    · exact absurd (List.getLast?_eq_none_iff.mp hlx) (by simp)
    have hlxmem : lx ∈ x0 :: xs' := List.mem_of_mem_getLast? (by rw [hlx]; rfl)
    have hlxlt : lx < c.arena.length := h.mem_lt (List.mem_append_left _ hlxmem)
    have hlxne : lx ≠ i := fun e => hixs (e ▸ hlxmem)
    have hch := h.chain
    rw [List.chain'_append] at hch
    have hbnd : rel c.arena lx i := hch.2.2 lx (by rw [hlx]; rfl) i rfl
    have hlxnext : (aget c.arena lx).next = some i := hbnd.1
    have hiprev : (aget c.arena i).prev = some lx := hbnd.2
    have hchxs : List.Chain' (rel c.arena) (x0 :: xs') := hch.1
    have hchiys := hch.2.1
    rw [List.chain'_cons'] at hchiys
    have hchys : List.Chain' (rel c.arena) ys := hchiys.2
    rcases ys with _ | ⟨y0, ys'⟩
    · -- ys = [] : i is the tail
      have hinext : (aget c.arena i).next = none := by
        refine h.lstNext i ?_
        rw [List.getLast?_concat]
      have htail : c.tail = some i := by
        rw [h.tailEq]
        exact List.getLast?_concat _
      have hx0i : x0 ≠ i := fun e => hixs (by rw [← e]; exact List.mem_cons_self _ _)
      unfold LruCache.move_to_head
      rw [if_neg hine]
      simp only [hiprev, hinext, hhead, htail, if_true, List.append_nil]
      refine ⟨?_, ?_, ?_, ?_, ?_, ?_, ?_, ?_, ?_⟩
      · -- perm
        simp only [length_amod]
        simpa using (@List.perm_middle Nat i (x0 :: xs') []).symm.trans (by simpa using h.perm)
      · -- chain
        rw [List.chain'_cons']
        refine ⟨?_, ?_⟩
        · intro y hy
          simp only [List.head?_cons, Option.mem_some_iff] at hy
          subst hy
          refine ⟨?_, ?_⟩
          · rw [aget_amod_self]
            simp [length_amod, hilt]
          · rw [aget_amod_ne _ _ _ _ hx0i, aget_amod_self]
            simp [length_amod, hx0lt]
        · refine chain'_congr_mem ?_ hchxs
          intro u hu w hw hrel
          obtain ⟨hn, hp⟩ := hrel
          have hui : u ≠ i := fun e => hixs (e ▸ hu)
          have hwi : w ≠ i := fun e => hixs (e ▸ hw)
          refine ⟨?_, ?_⟩
          · rw [aget_amod_ne _ _ _ _ hui]
            simp only [aget_amod_keep_next]
            by_cases hul : u = lx
            · exfalso
              rw [hul, hlxnext] at hn
              exact hwi (Option.some.inj hn).symm
            · rw [aget_amod_ne _ _ _ _ hul]
              exact hn
          · rw [aget_amod_ne _ _ _ _ hwi]
            by_cases hwx : w = x0
            · exfalso
              have hx0p : (aget c.arena x0).prev = none := h.fstPrev x0 rfl
              rw [hwx, hx0p] at hp
              exact Option.noConfusion hp
            · rw [aget_amod_ne _ _ _ _ hwx]
              simp only [aget_amod_keep_prev]
              exact hp
      · -- fstPrev
        intro j hj
        simp only [List.head?_cons, Option.some.injEq] at hj
        cases hj
        rw [aget_amod_self]
        simp [length_amod, hilt]
      · -- lstNext
        intro j hj
        rw [List.getLast?_cons_cons, hlx] at hj
        cases Option.some.inj hj
        rw [aget_amod_ne _ _ _ _ hlxne]
        simp only [aget_amod_keep_next]
        rw [aget_amod_self]
        simp [length_amod, hlxlt]
      · -- headEq
        rfl
      · -- tailEq
        rw [List.getLast?_cons_cons, hlx]
      · -- mapsTo
        intro j hj
        simp only [length_amod] at hj
        simp only [aget_amod_link_key]
        exact h.mapsTo j hj
      · -- mapDom
        intro k j hk
        simp only [length_amod]
        simp only [aget_amod_link_key]
        exact h.mapDom k j hk
      · -- mapNodup
        exact h.mapNodup
    · -- ys = y0 :: ys' : i has a successor
      have hx0i : x0 ≠ i := fun e => hixs (by rw [← e]; exact List.mem_cons_self _ _)
      have hrel_iy0 : rel c.arena i y0 := hchiys.1 y0 rfl
      have hinext : (aget c.arena i).next = some y0 := hrel_iy0.1
      have hy0prev : (aget c.arena y0).prev = some i := hrel_iy0.2
      have hy0mem : y0 ∈ y0 :: ys' := List.mem_cons_self _ _
      have hy0lt : y0 < c.arena.length := h.mem_lt (by simp)
      have hy0i : y0 ≠ i := fun e => hiys (e ▸ hy0mem)
      have hy0xs : y0 ∉ x0 :: xs' := fun hm => hdisj hm hy0mem
      have hy0x0 : y0 ≠ x0 := fun e => hy0xs (by rw [e]; exact List.mem_cons_self _ _)
      have hy0lx : y0 ≠ lx := fun e => hy0xs (e ▸ hlxmem)
      rcases hly : (y0 :: ys').getLast? with _ | ly
      · exact absurd (List.getLast?_eq_none_iff.mp hly) (by simp)
      have hlymem : ly ∈ y0 :: ys' := List.mem_of_mem_getLast? (by rw [hly]; rfl)
      have hlyi : ly ≠ i := fun e => hiys (e ▸ hlymem)
      have hlyxs : ly ∉ x0 :: xs' := fun hm => hdisj hm hlymem
      have hlyx0 : ly ≠ x0 := fun e => hlyxs (by rw [e]; exact List.mem_cons_self _ _)
      have hlylx : ly ≠ lx := fun e => hlyxs (e ▸ hlxmem)
      have hgl : ((x0 :: xs') ++ i :: y0 :: ys').getLast? = some ly := by
        rw [List.getLast?_append_of_ne_nil _ (by simp), List.getLast?_cons_cons, hly]
      have htail : c.tail = some ly := by rw [h.tailEq]; exact hgl
      have hlynext : (aget c.arena ly).next = none := h.lstNext ly hgl
      have htailne : ¬ some i = c.tail := by
        rw [htail]
        intro e
        exact hlyi (Option.some.inj e).symm
      unfold LruCache.move_to_head
      rw [if_neg hine]
      simp only [hiprev, hinext, hhead]
      rw [if_neg htailne]
      refine ⟨?_, ?_, ?_, ?_, ?_, ?_, ?_, ?_, ?_⟩
      · -- perm
        simp only [length_amod]
        simpa using (@List.perm_middle Nat i (x0 :: xs') (y0 :: ys')).symm.trans
          (by simpa using h.perm)
      · -- chain
        rw [List.chain'_cons']
        refine ⟨?_, ?_⟩
        · intro y hy
          simp only [List.cons_append, List.head?_cons, Option.mem_some_iff] at hy
          subst hy
          refine ⟨?_, ?_⟩
          · rw [aget_amod_self]
            simp [length_amod, hilt]
          · rw [aget_amod_ne _ _ _ _ hx0i, aget_amod_self]
            simp [length_amod, hx0lt]
        · rw [List.chain'_append]
          refine ⟨?_, ?_, ?_⟩
          · -- chain on the detached prefix
            refine chain'_congr_mem ?_ hchxs
            intro u hu w hw hrel
            obtain ⟨hn, hp⟩ := hrel
            have hui : u ≠ i := fun e => hixs (e ▸ hu)
            have hwi : w ≠ i := fun e => hixs (e ▸ hw)
            have hwy0 : w ≠ y0 := fun e => hy0xs (e ▸ hw)
            refine ⟨?_, ?_⟩
            · rw [aget_amod_ne _ _ _ _ hui]
              simp only [aget_amod_keep_next]
              by_cases hul : u = lx
              · exfalso
                rw [hul, hlxnext] at hn
                exact hwi (Option.some.inj hn).symm
              · rw [aget_amod_ne _ _ _ _ hul]
                exact hn
            · rw [aget_amod_ne _ _ _ _ hwi]
              by_cases hwx : w = x0
              · exfalso
                have hx0p : (aget c.arena x0).prev = none := h.fstPrev x0 rfl
                rw [hwx, hx0p] at hp
                exact Option.noConfusion hp
              · rw [aget_amod_ne _ _ _ _ hwx, aget_amod_ne _ _ _ _ hwy0]
                simp only [aget_amod_keep_prev]
                exact hp
          · -- chain on the suffix
            refine chain'_congr_mem ?_ hchys
            intro u hu w hw hrel
            obtain ⟨hn, hp⟩ := hrel
            have hui : u ≠ i := fun e => hiys (e ▸ hu)
            have hwi : w ≠ i := fun e => hiys (e ▸ hw)
            have hulx : u ≠ lx := fun e => hdisj (e ▸ hlxmem) hu
            have hwx0 : w ≠ x0 := fun e => hdisj (e ▸ List.mem_cons_self x0 xs') hw
            refine ⟨?_, ?_⟩
            · rw [aget_amod_ne _ _ _ _ hui]
              simp only [aget_amod_keep_next]
              rw [aget_amod_ne _ _ _ _ hulx]
              exact hn
            · rw [aget_amod_ne _ _ _ _ hwi, aget_amod_ne _ _ _ _ hwx0]
              by_cases hwy : w = y0
              · exfalso
                rw [hwy, hy0prev] at hp
                exact hui (Option.some.inj hp).symm
              · rw [aget_amod_ne _ _ _ _ hwy]
                simp only [aget_amod_keep_prev]
                exact hp
          · -- relink boundary between prefix and suffix
            intro u hu w hw
            rw [hlx] at hu
            rw [Option.mem_some_iff] at hu
            subst hu
            simp only [List.head?_cons, Option.mem_some_iff] at hw
            subst hw
            refine ⟨?_, ?_⟩
            · rw [aget_amod_ne _ _ _ _ hlxne]
              simp only [aget_amod_keep_next]
              rw [aget_amod_self]
              simp [length_amod, hlxlt]
            · rw [aget_amod_ne _ _ _ _ hy0i, aget_amod_ne _ _ _ _ hy0x0, aget_amod_self]
              simp [length_amod, hy0lt]
      · -- fstPrev
        intro j hj
        simp only [List.head?_cons, Option.some.injEq] at hj
        cases hj
        rw [aget_amod_self]
        simp [length_amod, hilt]
      · -- lstNext
        intro j hj
        rw [show i :: (x0 :: xs' ++ y0 :: ys') = (i :: (x0 :: xs')) ++ (y0 :: ys') by simp,
          List.getLast?_append_of_ne_nil _ (by simp), hly] at hj
        cases Option.some.inj hj
        rw [aget_amod_ne _ _ _ _ hlyi]
        simp only [aget_amod_keep_next]
        rw [aget_amod_ne _ _ _ _ hlylx]
        exact hlynext
      · -- headEq
        rfl
      · -- tailEq
        rw [htail,
          show i :: (x0 :: xs' ++ y0 :: ys') = (i :: (x0 :: xs')) ++ (y0 :: ys') by simp,
          List.getLast?_append_of_ne_nil _ (by simp), hly]
      · -- mapsTo
        intro j hj
        simp only [length_amod] at hj
        simp only [aget_amod_link_key]
        exact h.mapsTo j hj
      · -- mapDom
        intro k j hk
        simp only [length_amod]
        simp only [aget_amod_link_key]
        exact h.mapDom k j hk
      · -- mapNodup
        exact h.mapNodup

theorem map_eq_nil_of_wf_nil {c : LruCache K V} (h : WF c []) : c.map = [] := by
  cases hm : c.map with
  | nil => rfl
  | cons p rest =>
    exfalso
    have hget : mapGet c.map p.1 = some p.2 := by
      rw [hm]
      simp [mapGet]
    have hlt := (h.mapDom p.1 p.2 hget).1
    have hlen : c.arena.length = 0 := by simpa using h.len_is.symm
    omega

theorem arena_eq_nil_of_wf_nil {c : LruCache K V} (h : WF c []) : c.arena = [] :=
  List.length_eq_zero.mp (by simpa using h.len_is.symm)

theorem insertNew_wf {c : LruCache K V} {is : List Nat} (h : WF c is) (k : K) (v : V)
    (hk : mapGet c.map k = none) :
    WF (c.insertNew k v) (c.arena.length :: is) := by
  rcases is with _ | ⟨x0, is'⟩
  · -- empty cache: the new node is the sole element
    have hmap : c.map = [] := map_eq_nil_of_wf_nil h
    have harena : c.arena = [] := arena_eq_nil_of_wf_nil h
    have hhead : c.head = none := by simpa using h.headEq
    have htail : c.tail = none := by simpa using h.tailEq
    unfold LruCache.insertNew
    simp only [hhead, hmap, harena, htail, List.length_nil, List.nil_append, if_pos rfl]
    refine ⟨?_, ?_, ?_, ?_, ?_, ?_, ?_, ?_, ?_⟩
    · simp [List.range_succ]
    · simp
    · intro j hj
      simp only [List.head?_cons, Option.some.injEq] at hj
      cases hj
      simp [aget]
    · intro j hj
      simp only [List.getLast?_singleton, Option.some.injEq] at hj
      cases hj
      simp [aget]
    · rfl
    · rfl
    · intro j hj
      simp only [List.length_cons, List.length_nil] at hj
      interval_cases j
      simp [aget, mapInsert, mapGet]
    · intro k' j hk'
      simp only [mapInsert, mapGet] at hk'
      by_cases he : k = k'
      · subst he
        simp at hk'
        subst hk'
        simp [aget]
      · simp [he] at hk'
    · simp [mapInsert]
  · -- nonempty cache: relink the old head behind the new node
    have hhead : c.head = some x0 := by simpa using h.headEq
    have hx0lt : x0 < c.arena.length := h.mem_lt (List.mem_cons_self _ _)
    have hnne : c.arena.length ≠ x0 := fun e => Nat.ne_of_lt hx0lt e.symm
    rcases hgl : (x0 :: is').getLast? with _ | l0
    · exact absurd (List.getLast?_eq_none_iff.mp hgl) (by simp)
    have hl0mem : l0 ∈ x0 :: is' := List.mem_of_mem_getLast? (by rw [hgl]; rfl)
    have hl0lt : l0 < c.arena.length := h.mem_lt hl0mem
    have htail : c.tail = some l0 := by rw [h.tailEq]; exact hgl
    have htailne : ¬ c.tail = none := by rw [htail]; simp
    unfold LruCache.insertNew
    simp only [hhead]
    rw [if_neg htailne]
    refine ⟨?_, ?_, ?_, ?_, ?_, ?_, ?_, ?_, ?_⟩
    · -- perm
      simp only [length_amod, List.length_append, List.length_cons, List.length_nil]
      have h1 : (c.arena.length :: (x0 :: is')).Perm
          (c.arena.length :: List.range c.arena.length) := h.perm.cons _
      have h2 : (List.range (c.arena.length + 1)).Perm
          (c.arena.length :: List.range c.arena.length) := by
        rw [List.range_succ]
        have := @List.perm_middle Nat c.arena.length (List.range c.arena.length) []
        simpa using this
      exact h1.trans h2.symm
    · -- chain
      rw [List.chain'_cons']
      refine ⟨?_, ?_⟩
      · intro y hy
        simp only [List.head?_cons, Option.mem_some_iff] at hy
        subst hy
        refine ⟨?_, ?_⟩
        · rw [aget_amod_ne _ _ _ _ hnne, aget_append_self]
        · rw [aget_amod_self]
          simp only [List.length_append, List.length_cons, List.length_nil]
          omega
      · refine chain'_congr_mem ?_ h.chain
        intro u hu w hw hrel
        obtain ⟨hn, hp⟩ := hrel
        refine ⟨?_, ?_⟩
        · simp only [aget_amod_keep_next]
          rw [aget_append_lt _ _ _ (h.mem_lt hu)]
          exact hn
        · by_cases hwx : w = x0
          · exfalso
            have hx0p : (aget c.arena x0).prev = none := h.fstPrev x0 rfl
            rw [hwx, hx0p] at hp
            exact Option.noConfusion hp
          · rw [aget_amod_ne _ _ _ _ hwx, aget_append_lt _ _ _ (h.mem_lt hw)]
            exact hp
    · -- fstPrev
      intro j hj
      simp only [List.head?_cons, Option.some.injEq] at hj
      cases hj
      rw [aget_amod_ne _ _ _ _ hnne, aget_append_self]
    · -- lstNext
      intro j hj
      rw [List.getLast?_cons_cons, hgl] at hj
      cases Option.some.inj hj
      simp only [aget_amod_keep_next]
      rw [aget_append_lt _ _ _ hl0lt]
      exact h.lstNext l0 hgl
    · rfl
    · rw [htail, List.getLast?_cons_cons, hgl]
    · -- mapsTo
      intro j hj
      simp only [length_amod, List.length_append, List.length_cons, List.length_nil] at hj
      simp only [aget_amod_link_key]
      by_cases hjn : j = c.arena.length
      · subst hjn
        rw [aget_append_self]
        simpa using mapGet_mapInsert_self c.map k c.arena.length
      · have hjlt : j < c.arena.length := by omega
        rw [aget_append_lt _ _ _ hjlt]
        have hne : (aget c.arena j).key ≠ k := by
          intro e
          have := h.mapsTo j hjlt
          rw [e, hk] at this
          exact Option.noConfusion this
        rw [mapGet_mapInsert_ne _ _ _ _ hne]
        exact h.mapsTo j hjlt
    · -- mapDom
      intro k' j hk'
      simp only [length_amod, List.length_append, List.length_cons, List.length_nil]
      simp only [aget_amod_link_key]
      by_cases hkk : k' = k
      · subst hkk
        rw [mapGet_mapInsert_self] at hk'
        cases Option.some.inj hk'
        constructor
        · omega
        · rw [aget_append_self]
      · rw [mapGet_mapInsert_ne _ _ _ _ hkk] at hk'
        rcases h.mapDom k' j hk' with ⟨hjl, hjk⟩
        constructor
        · omega
        · rw [aget_append_lt _ _ _ hjl]
          exact hjk
    · exact nodupKeys_mapInsert _ _ _ h.mapNodup


theorem remove_lru_wf {c : LruCache K V} {ds : List Nat} {t : Nat}
    (h : WF c (ds ++ [t])) :
    ∃ is2, WF c.remove_lru is2 ∧ absL c.remove_lru is2 = absL c ds ∧
      c.remove_lru.arena.length = c.arena.length - 1 ∧
      c.remove_lru.capacity = c.capacity := by
  have ht_tail : c.tail = some t := by rw [h.tailEq]; exact List.getLast?_concat _
  have htlt : t < c.arena.length := h.mem_lt (by simp)
  have hlen : c.arena.length = ds.length + 1 := by
    have := h.len_is
    simp at this
    omega
  rcases nodup_middle_parts (by simpa using h.nodup) with ⟨htds, -, -, hds_nd, -⟩
  have hch := h.chain
  rw [List.chain'_append] at hch
  rcases ds with _ | ⟨d0, ds'⟩
  · -- removing the only element: the cache becomes empty
    have hlen1 : c.arena.length = 1 := by simpa using hlen
    have hprev_t : (aget c.arena t).prev = none := h.fstPrev t rfl
    have hanil : c.arena ≠ [] := by
      intro e
      rw [e] at hlen1
      simp at hlen1
    have ha2len : (swapRemove c.arena t).length = 0 := by
      rw [length_swapRemove _ _ hanil]
      omega
    have hcond : ¬ t < (swapRemove c.arena t).length := by
      rw [ha2len]
      omega
    unfold LruCache.remove_lru
    rw [ht_tail]
    simp only [hprev_t]
    rw [if_neg hcond]
    refine ⟨[], ⟨?_, ?_, ?_, ?_, ?_, ?_, ?_, ?_, ?_⟩, ?_, ?_, ?_⟩
    · simp [ha2len]
    · exact List.chain'_nil
    · intro j hj
      simp at hj
    · intro j hj
      simp at hj
    · rfl
    · rfl
    · intro j hj
      rw [ha2len] at hj
      omega
    · intro k j hk
      by_cases hkt : k = (aget c.arena t).key
      · rw [hkt, mapGet_mapRemove_self _ _ h.mapNodup] at hk
        exact Option.noConfusion hk
      · rw [mapGet_mapRemove_ne _ _ _ hkt] at hk
        rcases h.mapDom k j hk with ⟨hjl, hjk⟩
        exfalso
        have hjt : j = t := by omega
        exact hkt (by rw [← hjt]; exact hjk.symm)
    · exact nodupKeys_mapRemove _ _ h.mapNodup
    · rfl
    · simp [ha2len, hlen1]
    · rfl
  · -- at least two elements: a new tail takes over
    have hd0head : c.head = some d0 := by simpa using h.headEq
    rcases hnt : (d0 :: ds').getLast? with _ | nt
    · exact absurd (List.getLast?_eq_none_iff.mp hnt) (by simp)
    have hntmem : nt ∈ d0 :: ds' := List.mem_of_mem_getLast? (by rw [hnt]; rfl)
    have hntlt : nt < c.arena.length := h.mem_lt (List.mem_append_left _ hntmem)
    have hnt_t : nt ≠ t := fun e => htds (e ▸ hntmem)
    have hrel_nt_t : rel c.arena nt t := hch.2.2 nt (by rw [hnt]; rfl) t rfl
    have hnt_next : (aget c.arena nt).next = some t := hrel_nt_t.1
    have hprev_t : (aget c.arena t).prev = some nt := hrel_nt_t.2
    have hchds : List.Chain' (rel c.arena) (d0 :: ds') := hch.1
    have ha1len :
        (amod c.arena nt (fun nd => { nd with next := none })).length = c.arena.length :=
      length_amod _ _ _
    have ha1nil : (amod c.arena nt (fun nd => { nd with next := none })) ≠ [] := by
      intro e
      rw [e] at ha1len
      simp at ha1len
      omega
    have ha2len :
        (swapRemove (amod c.arena nt (fun nd => { nd with next := none })) t).length
          = c.arena.length - 1 := by
      rw [length_swapRemove _ _ ha1nil, ha1len]
    by_cases htm : t < c.arena.length - 1
    · -- subcase B : compaction really moves the last physical slot
      obtain ⟨m, hmval⟩ : ∃ m, c.arena.length - 1 = m := ⟨_, rfl⟩
      have hmsucc : c.arena.length = m + 1 := by omega
      rw [hmval] at ha2len htm
      have hmlt : m < c.arena.length := by omega
      have hmmem : m ∈ d0 :: ds' := by
        have hfull : m ∈ (d0 :: ds') ++ [t] := h.lt_mem hmlt
        rcases List.mem_append.mp hfull with hm | hm
        · exact hm
        · exfalso
          simp at hm
          omega
      have htm_ne : t ≠ m := by omega
      rcases List.append_of_mem hmmem with ⟨es, fs, hds_eq⟩
      have h2 : WF c ((es ++ m :: fs) ++ [t]) := by
        rw [← hds_eq]
        exact h
      have hnd2 : (es ++ m :: fs).Nodup := by rw [← hds_eq]; exact hds_nd
      rcases nodup_middle_parts hnd2 with ⟨hmes, hmfs, hdisj2, hes_nd, hfs_nd⟩
      have htds2 : t ∉ es ++ m :: fs := by rw [← hds_eq]; exact htds
      have htes : t ∉ es := fun hmem => htds2 (List.mem_append_left _ hmem)
      have htfs : t ∉ fs :=
        fun hmem => htds2 (List.mem_append_right _ (List.mem_cons_of_mem _ hmem))
      have hch2 : List.Chain' (rel c.arena) (es ++ m :: fs) := by
        rw [← hds_eq]
        exact hchds
      rw [List.chain'_append] at hch2
      have hches : List.Chain' (rel c.arena) es := hch2.1
      have hchmfs := hch2.2.1
      rw [List.chain'_cons'] at hchmfs
      have hrel_mf : ∀ y ∈ fs.head?, rel c.arena m y := hchmfs.1
      have hchfs : List.Chain' (rel c.arena) fs := hchmfs.2
      have hbnd_es : ∀ x ∈ es.getLast?, rel c.arena x m := fun x hx => hch2.2.2 x hx m rfl
      have hnt2 : (es ++ m :: fs).getLast? = some nt := by rw [← hds_eq]; exact hnt
      have hes_small : ∀ j ∈ es, j < m := by
        intro j hj
        have hjlt : j < c.arena.length :=
          h2.mem_lt (List.mem_append_left _ (List.mem_append_left _ hj))
        have hjm : j ≠ m := fun e => hmes (e ▸ hj)
        omega
      have hfs_small : ∀ j ∈ fs, j < m := by
        intro j hj
        have hjlt : j < c.arena.length :=
          h2.mem_lt (List.mem_append_left _
            (List.mem_append_right _ (List.mem_cons_of_mem _ hj)))
        have hjm : j ≠ m := fun e => hmfs (e ▸ hj)
        omega
      have hes_t : ∀ j ∈ es, j ≠ t := fun j hj e => htes (e ▸ hj)
      have hfs_t : ∀ j ∈ fs, j ≠ t := fun j hj e => htfs (e ▸ hj)
      have hswap_ne : ∀ j, j < m → j ≠ t →
          aget (swapRemove (amod c.arena nt (fun nd => { nd with next := none })) t) j
            = aget (amod c.arena nt (fun nd => { nd with next := none })) j := by
        intro j hj hjt
        exact aget_swapRemove_ne _ _ _ (by rw [ha1len]; omega) hjt
      have hswap_t :
          aget (swapRemove (amod c.arena nt (fun nd => { nd with next := none })) t) t
            = aget (amod c.arena nt (fun nd => { nd with next := none })) m := by
        have hh := aget_swapRemove_self
          (amod c.arena nt (fun nd => { nd with next := none })) t (by rw [ha1len]; omega)
        rw [ha1len, hmval] at hh
        exact hh
      have ha1_prev : ∀ j,
          (aget (amod c.arena nt (fun nd => { nd with next := none })) j).prev
            = (aget c.arena j).prev := by
        intro j
        simp only [aget_amod_keep_prev]
      have ha1_key : ∀ j,
          (aget (amod c.arena nt (fun nd => { nd with next := none })) j).key
            = (aget c.arena j).key := by
        intro j
        simp only [aget_amod_link_key]
      have ha1_value : ∀ j,
          (aget (amod c.arena nt (fun nd => { nd with next := none })) j).value
            = (aget c.arena j).value := by
        intro j
        simp only [aget_amod_link_value]
      have hpermB : (es ++ t :: fs).Perm (List.range m) := by
        have hp0 := h2.perm
        rw [hmsucc, List.range_succ] at hp0
        have hp1 : (es ++ ((m :: fs) ++ [t])).Perm (List.range m ++ [m]) := by
          rw [← List.append_assoc]
          exact hp0
        have hp2 : (es ++ (fs ++ [t])).Perm (List.range m) := by
          refine @List.Perm.cons_inv Nat m _ _ ?_
          refine (@List.perm_middle Nat m es (fs ++ [t])).symm.trans (hp1.trans ?_)
          simpa using @List.perm_middle Nat m (List.range m) []
        have hp3 : (es ++ t :: fs).Perm (t :: (es ++ fs)) := List.perm_middle
        have hp4 : (t :: (es ++ fs)).Perm ((es ++ fs) ++ [t]) :=
          @List.perm_append_comm Nat [t] (es ++ fs)
        have hp5 : ((es ++ fs) ++ [t]).Perm (List.range m) := by
          rw [List.append_assoc]
          exact hp2
        exact hp3.trans (hp4.trans hp5)
      rcases es with _ | ⟨e0, es''⟩
      · -- es empty : the moved slot was the head
        have hd0m : d0 = m := (List.cons.inj hds_eq).1
        have hprev_m : (aget c.arena m).prev = none := h2.fstPrev m rfl
        have hmv_prev :
            (aget (swapRemove (amod c.arena nt (fun nd => { nd with next := none })) t) t).prev
              = none := by
          rw [hswap_t, ha1_prev, hprev_m]
        have hcondH : c.head = some
            (swapRemove (amod c.arena nt (fun nd => { nd with next := none })) t).length := by
          rw [hd0head, hd0m, ha2len]
        have hcondB :
            t < (swapRemove (amod c.arena nt (fun nd => { nd with next := none })) t).length := by
          rw [ha2len]
          omega
        rcases fs with _ | ⟨f0, fs''⟩
        · -- the chain was exactly [m, t]
          rw [List.nil_append] at hnt2
          have hntm : nt = m := Option.some.inj (by rw [← hnt2, List.getLast?_singleton])
          subst hntm
          have hmv_next :
              (aget (swapRemove (amod c.arena nt (fun nd => { nd with next := none })) t) t).next
                = none := by
            rw [hswap_t, aget_amod_self _ _ _ hntlt]
          have hmv_key :
              (aget (swapRemove (amod c.arena nt (fun nd => { nd with next := none })) t) t).key
                = (aget c.arena nt).key := by
            rw [hswap_t, ha1_key]
          have hcondT : (some nt : Option Nat) = some
              (swapRemove (amod c.arena nt (fun nd => { nd with next := none })) t).length := by
            rw [ha2len]
          unfold LruCache.remove_lru
          rw [ht_tail]
          simp only [hprev_t]
          rw [if_pos hcondB]
          simp only [hmv_prev, hmv_next, hmv_key]
          rw [if_pos hcondH, if_pos hcondT]
          refine ⟨[t], ⟨?_, ?_, ?_, ?_, ?_, ?_, ?_, ?_, ?_⟩, ?_, ?_, ?_⟩
          · -- perm
            simp only [length_amod, ha2len]
            exact hpermB
          · -- chain
            exact List.chain'_singleton t
          · -- fstPrev
            intro j hj
            simp only [List.head?_cons, Option.some.injEq] at hj
            cases hj
            exact hmv_prev
          · -- lstNext
            intro j hj
            simp only [List.getLast?_singleton, Option.some.injEq] at hj
            cases hj
            exact hmv_next
          · -- headEq
            rfl
          · -- tailEq
            rfl
          · -- mapsTo
            intro j hj
            simp only [length_amod, ha2len] at hj
            by_cases hjt : j = t
            · subst hjt
              rw [hmv_key, mapGet_mapInsert_self]
            · rw [hswap_ne j hj hjt, ha1_key]
              have hjm : j ≠ nt := by omega
              have hkey_ne_m : (aget c.arena j).key ≠ (aget c.arena nt).key :=
                fun e => hjm (h2.key_inj (by omega) hntlt e)
              have hkey_ne_t : (aget c.arena j).key ≠ (aget c.arena t).key :=
                fun e => hjt (h2.key_inj (by omega) htlt e)
              rw [mapGet_mapInsert_ne _ _ _ _ hkey_ne_m, mapGet_mapRemove_ne _ _ _ hkey_ne_t]
              exact h2.mapsTo j (by omega)
          · -- mapDom
            intro k j hk
            simp only [length_amod, ha2len]
            by_cases hkm : k = (aget c.arena nt).key
            · subst hkm
              rw [mapGet_mapInsert_self] at hk
              cases Option.some.inj hk
              refine ⟨htm, ?_⟩
              rw [hmv_key]
            · rw [mapGet_mapInsert_ne _ _ _ _ hkm] at hk
              by_cases hkt : k = (aget c.arena t).key
              · rw [hkt, mapGet_mapRemove_self _ _ h2.mapNodup] at hk
                exact Option.noConfusion hk
              · rw [mapGet_mapRemove_ne _ _ _ hkt] at hk
                rcases h2.mapDom k j hk with ⟨hjl, hjk⟩
                have hjm2 : j ≠ nt := fun e => hkm (by rw [← hjk, e])
                have hjt2 : j ≠ t := fun e => hkt (by rw [← hjk, e])
                refine ⟨by omega, ?_⟩
                rw [hswap_ne j (by omega) hjt2, ha1_key]
                exact hjk
          · -- mapNodup
            exact nodupKeys_mapInsert _ _ _ (nodupKeys_mapRemove _ _ h2.mapNodup)
          · -- contents
            rw [hds_eq]
            simp only [absL, List.map_cons, List.map_nil]
            congr 1
            rw [hswap_t, ha1_key, ha1_value]
          · -- length
            rw [ha2len, hmval]
          · -- capacity
            trivial
        · -- es empty, fs nonempty : moved head keeps a successor
          rw [List.nil_append, List.getLast?_cons_cons] at hnt2
          have hntmem_fs : nt ∈ f0 :: fs'' := List.mem_of_mem_getLast? (by rw [hnt2]; rfl)
          have hntm_ne : nt ≠ m := fun e => hmfs (e ▸ hntmem_fs)
          have hmnt_ne : m ≠ nt := fun e => hntm_ne e.symm
          have hnt_small : nt < m := hfs_small nt hntmem_fs
          have hf0mem : f0 ∈ f0 :: fs'' := List.mem_cons_self _ _
          have hf0_small : f0 < m := hfs_small f0 hf0mem
          have hf0_t : f0 ≠ t := hfs_t f0 hf0mem
          have hrel_mf0 : rel c.arena m f0 := hrel_mf f0 rfl
          have hnext_m : (aget c.arena m).next = some f0 := hrel_mf0.1
          have hf0prev : (aget c.arena f0).prev = some m := hrel_mf0.2
          have hmv_next :
              (aget (swapRemove (amod c.arena nt (fun nd => { nd with next := none })) t) t).next
                = some f0 := by
            rw [hswap_t, aget_amod_ne _ _ _ _ hmnt_ne, hnext_m]
          have hmv_key :
              (aget (swapRemove (amod c.arena nt (fun nd => { nd with next := none })) t) t).key
                = (aget c.arena m).key := by
            rw [hswap_t, ha1_key]
          have hcondT : ¬ (some nt : Option Nat) = some
              (swapRemove (amod c.arena nt (fun nd => { nd with next := none })) t).length := by
            rw [ha2len]
            intro e
            exact hntm_ne (Option.some.inj e)
          unfold LruCache.remove_lru
          rw [ht_tail]
          simp only [hprev_t]
          rw [if_pos hcondB]
          simp only [hmv_prev, hmv_next, hmv_key]
          rw [if_pos hcondH, if_neg hcondT]
          refine ⟨t :: f0 :: fs'', ⟨?_, ?_, ?_, ?_, ?_, ?_, ?_, ?_, ?_⟩, ?_, ?_, ?_⟩
          · -- perm
            simp only [length_amod, ha2len]
            exact hpermB
          · -- chain
            rw [List.chain'_cons']
            refine ⟨?_, ?_⟩
            · intro y hy
              simp only [List.head?_cons, Option.mem_some_iff] at hy
              subst hy
              refine ⟨?_, ?_⟩
              · simp only [aget_amod_keep_next]
                rw [hswap_t, aget_amod_ne _ _ _ _ hmnt_ne, hnext_m]
              · rw [aget_amod_self]
                simp only [length_amod, ha2len]
                exact hf0_small
            · refine chain'_congr_mem ?_ hchfs
              intro u hu w hw hrel
              obtain ⟨hn, hp⟩ := hrel
              have hu_small : u < m := hfs_small u hu
              have hu_t : u ≠ t := hfs_t u hu
              have hw_small : w < m := hfs_small w hw
              have hw_t : w ≠ t := hfs_t w hw
              refine ⟨?_, ?_⟩
              · simp only [aget_amod_keep_next]
                rw [hswap_ne u hu_small hu_t]
                by_cases hunt : u = nt
                · exfalso
                  rw [hunt, hnt_next] at hn
                  exact htfs ((Option.some.inj hn) ▸ hw)
                · rw [aget_amod_ne _ _ _ _ hunt]
                  exact hn
              · by_cases hwf : w = f0
                · exfalso
                  rw [hwf, hf0prev] at hp
                  exact hmfs ((Option.some.inj hp) ▸ hu)
                · rw [aget_amod_ne _ _ _ _ hwf]
                  rw [hswap_ne w hw_small hw_t, ha1_prev]
                  exact hp
          · -- fstPrev
            intro j hj
            simp only [List.head?_cons, Option.some.injEq] at hj
            cases hj
            have htf0 : t ≠ f0 := fun e => hf0_t e.symm
            rw [aget_amod_ne _ _ _ _ htf0]
            exact hmv_prev
          · -- lstNext
            intro j hj
            rw [List.getLast?_cons_cons, hnt2] at hj
            cases Option.some.inj hj
            simp only [aget_amod_keep_next]
            rw [hswap_ne nt hnt_small hnt_t, aget_amod_self _ _ _ hntlt]
          · -- headEq
            rfl
          · -- tailEq
            rw [List.getLast?_cons_cons, hnt2]
          · -- mapsTo
            intro j hj
            simp only [length_amod, ha2len] at hj
            simp only [aget_amod_link_key]
            by_cases hjt : j = t
            · subst hjt
              rw [hmv_key, mapGet_mapInsert_self]
            · rw [hswap_ne j hj hjt, ha1_key]
              have hjm : j ≠ m := by omega
              have hkey_ne_m : (aget c.arena j).key ≠ (aget c.arena m).key :=
                fun e => hjm (h2.key_inj (by omega) hmlt e)
              have hkey_ne_t : (aget c.arena j).key ≠ (aget c.arena t).key :=
                fun e => hjt (h2.key_inj (by omega) htlt e)
              rw [mapGet_mapInsert_ne _ _ _ _ hkey_ne_m, mapGet_mapRemove_ne _ _ _ hkey_ne_t]
              exact h2.mapsTo j (by omega)
          · -- mapDom
            intro k j hk
            simp only [length_amod, ha2len]
            simp only [aget_amod_link_key]
            by_cases hkm : k = (aget c.arena m).key
            · subst hkm
              rw [mapGet_mapInsert_self] at hk
              cases Option.some.inj hk
              refine ⟨htm, ?_⟩
              rw [hmv_key]
            · rw [mapGet_mapInsert_ne _ _ _ _ hkm] at hk
              by_cases hkt : k = (aget c.arena t).key
              · rw [hkt, mapGet_mapRemove_self _ _ h2.mapNodup] at hk
                exact Option.noConfusion hk
              · rw [mapGet_mapRemove_ne _ _ _ hkt] at hk
                rcases h2.mapDom k j hk with ⟨hjl, hjk⟩
                have hjm : j ≠ m := fun e => hkm (by rw [← hjk, e])
                have hjt : j ≠ t := fun e => hkt (by rw [← hjk, e])
                refine ⟨by omega, ?_⟩
                rw [hswap_ne j (by omega) hjt, ha1_key]
                exact hjk
          · -- mapNodup
            exact nodupKeys_mapInsert _ _ _ (nodupKeys_mapRemove _ _ h2.mapNodup)
          · -- contents
            rw [hds_eq]
            simp only [absL, List.map_cons, List.nil_append]
            have hkv_ne : ∀ j, j < m → j ≠ t →
                ((aget (amod (swapRemove
                    (amod c.arena nt (fun nd => { nd with next := none })) t) f0
                    (fun nd => { nd with prev := some t })) j).key,
                  (aget (amod (swapRemove
                    (amod c.arena nt (fun nd => { nd with next := none })) t) f0
                    (fun nd => { nd with prev := some t })) j).value)
                  = ((aget c.arena j).key, (aget c.arena j).value) := by
              intro j hjm hjt
              simp only [aget_amod_link_key, aget_amod_link_value]
              rw [hswap_ne j hjm hjt, ha1_key, ha1_value]
            congr 1
            · simp only [aget_amod_link_key, aget_amod_link_value]
              rw [hswap_t, ha1_key, ha1_value]
            · congr 1
              · exact hkv_ne f0 hf0_small hf0_t
              · refine List.map_congr_left ?_
                intro j hj
                exact hkv_ne j (hfs_small j (List.mem_cons_of_mem _ hj))
                  (hfs_t j (List.mem_cons_of_mem _ hj))
          · -- length
            simp only [length_amod]
            rw [ha2len, hmval]
          · -- capacity
            trivial
      · rcases fs with _ | ⟨f0, fs''⟩
        · -- es nonempty, fs empty : the moved slot was the old tail's neighbour
          have hd0e0 : d0 = e0 := by
            have hds2 := hds_eq
            rw [List.cons_append] at hds2
            exact (List.cons.inj hds2).1
          have hntm : nt = m := Option.some.inj (by rw [← hnt2, List.getLast?_concat])
          subst hntm
          rcases hp_last : (e0 :: es'').getLast? with _ | p
          · exact absurd (List.getLast?_eq_none_iff.mp hp_last) (by simp)
          have hpmem : p ∈ e0 :: es'' := List.mem_of_mem_getLast? (by rw [hp_last]; rfl)
          have hrel_pm : rel c.arena p nt := hbnd_es p (by rw [hp_last]; rfl)
          have hp_small : p < nt := hes_small p hpmem
          have hp_t : p ≠ t := hes_t p hpmem
          have hprev_m : (aget c.arena nt).prev = some p := hrel_pm.2
          have hp_next : (aget c.arena p).next = some nt := hrel_pm.1
          have hmv_prev :
              (aget (swapRemove (amod c.arena nt (fun nd => { nd with next := none })) t) t).prev
                = some p := by
            rw [hswap_t, ha1_prev, hprev_m]
          have hmv_next :
              (aget (swapRemove (amod c.arena nt (fun nd => { nd with next := none })) t) t).next
                = none := by
            rw [hswap_t, aget_amod_self _ _ _ hntlt]
          have hmv_key :
              (aget (swapRemove (amod c.arena nt (fun nd => { nd with next := none })) t) t).key
                = (aget c.arena nt).key := by
            rw [hswap_t, ha1_key]
          have hd0m : d0 ≠ nt := by
            rw [hd0e0]
            exact fun e => hmes (e ▸ List.mem_cons_self e0 es'')
          have hcondH : ¬ c.head = some
              (swapRemove (amod c.arena nt (fun nd => { nd with next := none })) t).length := by
            rw [hd0head, ha2len]
            intro e
            exact hd0m (Option.some.inj e)
          have hcondT : (some nt : Option Nat) = some
              (swapRemove (amod c.arena nt (fun nd => { nd with next := none })) t).length := by
            rw [ha2len]
          have hcondB :
              t < (swapRemove (amod c.arena nt (fun nd => { nd with next := none })) t).length := by
            rw [ha2len]
            omega
          unfold LruCache.remove_lru
          rw [ht_tail]
          simp only [hprev_t]
          rw [if_pos hcondB]
          simp only [hmv_prev, hmv_next, hmv_key]
          rw [if_neg hcondH, if_pos hcondT]
          refine ⟨(e0 :: es'') ++ [t], ⟨?_, ?_, ?_, ?_, ?_, ?_, ?_, ?_, ?_⟩, ?_, ?_, ?_⟩
          · -- perm
            simp only [length_amod, ha2len]
            exact hpermB
          · -- chain
            rw [List.chain'_append]
            refine ⟨?_, ?_, ?_⟩
            · refine chain'_congr_mem ?_ hches
              intro u hu w hw hrel
              obtain ⟨hn, hp⟩ := hrel
              have hu_small : u < nt := hes_small u hu
              have hu_t : u ≠ t := hes_t u hu
              have hw_small : w < nt := hes_small w hw
              have hw_t : w ≠ t := hes_t w hw
              have hu_nt : u ≠ nt := fun e => hmes (e ▸ hu)
              refine ⟨?_, ?_⟩
              · by_cases hup : u = p
                · exfalso
                  rw [hup, hp_next] at hn
                  exact hmes ((Option.some.inj hn) ▸ hw)
                · rw [aget_amod_ne _ _ _ _ hup, hswap_ne u hu_small hu_t,
                    aget_amod_ne _ _ _ _ hu_nt]
                  exact hn
              · simp only [aget_amod_keep_prev]
                rw [hswap_ne w hw_small hw_t, ha1_prev]
                exact hp
            · exact List.chain'_singleton t
            · intro x hx w hw
              rw [hp_last] at hx
              rw [Option.mem_some_iff] at hx
              subst hx
              simp only [List.head?_cons, Option.mem_some_iff] at hw
              subst hw
              refine ⟨?_, ?_⟩
              · rw [aget_amod_self]
                rw [ha2len]
                exact hp_small
              · have htp : t ≠ p := fun e => hp_t e.symm
                simp only [aget_amod_keep_prev]
                exact hmv_prev
          · -- fstPrev
            intro j hj
            simp only [List.cons_append, List.head?_cons, Option.some.injEq] at hj
            cases hj
            have he0mem : e0 ∈ e0 :: es'' := List.mem_cons_self _ _
            simp only [aget_amod_keep_prev]
            rw [hswap_ne e0 (hes_small e0 he0mem) (hes_t e0 he0mem), ha1_prev]
            exact h2.fstPrev e0 rfl
          · -- lstNext
            intro j hj
            rw [List.getLast?_concat] at hj
            cases Option.some.inj hj
            have htp : t ≠ p := fun e => hp_t e.symm
            rw [aget_amod_ne _ _ _ _ htp]
            exact hmv_next
          · -- headEq
            rw [hd0head, hd0e0]
            simp
          · -- tailEq
            rw [List.getLast?_concat]
          · -- mapsTo
            intro j hj
            simp only [length_amod, ha2len] at hj
            simp only [aget_amod_link_key]
            by_cases hjt : j = t
            · subst hjt
              rw [hmv_key, mapGet_mapInsert_self]
            · rw [hswap_ne j hj hjt, ha1_key]
              have hjm : j ≠ nt := by omega
              have hkey_ne_m : (aget c.arena j).key ≠ (aget c.arena nt).key :=
                fun e => hjm (h2.key_inj (by omega) hntlt e)
              have hkey_ne_t : (aget c.arena j).key ≠ (aget c.arena t).key :=
                fun e => hjt (h2.key_inj (by omega) htlt e)
              rw [mapGet_mapInsert_ne _ _ _ _ hkey_ne_m, mapGet_mapRemove_ne _ _ _ hkey_ne_t]
              exact h2.mapsTo j (by omega)
          · -- mapDom
            intro k j hk
            simp only [length_amod, ha2len]
            simp only [aget_amod_link_key]
            by_cases hkm : k = (aget c.arena nt).key
            · subst hkm
              rw [mapGet_mapInsert_self] at hk
              cases Option.some.inj hk
              refine ⟨htm, ?_⟩
              rw [hmv_key]
            · rw [mapGet_mapInsert_ne _ _ _ _ hkm] at hk
              by_cases hkt : k = (aget c.arena t).key
              · rw [hkt, mapGet_mapRemove_self _ _ h2.mapNodup] at hk
                exact Option.noConfusion hk
              · rw [mapGet_mapRemove_ne _ _ _ hkt] at hk
                rcases h2.mapDom k j hk with ⟨hjl, hjk⟩
                have hjm2 : j ≠ nt := fun e => hkm (by rw [← hjk, e])
                have hjt2 : j ≠ t := fun e => hkt (by rw [← hjk, e])
                refine ⟨by omega, ?_⟩
                rw [hswap_ne j (by omega) hjt2, ha1_key]
                exact hjk
          · -- mapNodup
            exact nodupKeys_mapInsert _ _ _ (nodupKeys_mapRemove _ _ h2.mapNodup)
          · -- contents
            rw [hds_eq]
            simp only [absL, List.map_append]
            have hkv_ne : ∀ j, j < nt → j ≠ t →
                ((aget (amod (swapRemove
                    (amod c.arena nt (fun nd => { nd with next := none })) t) p
                    (fun nd => { nd with next := some t })) j).key,
                  (aget (amod (swapRemove
                    (amod c.arena nt (fun nd => { nd with next := none })) t) p
                    (fun nd => { nd with next := some t })) j).value)
                  = ((aget c.arena j).key, (aget c.arena j).value) := by
              intro j hjm hjt
              simp only [aget_amod_link_key, aget_amod_link_value]
              rw [hswap_ne j hjm hjt, ha1_key, ha1_value]
            congr 1
            · refine List.map_congr_left ?_
              intro j hj
              exact hkv_ne j (hes_small j hj) (hes_t j hj)
            · simp only [List.map_cons, List.map_nil]
              congr 1
              simp only [aget_amod_link_key, aget_amod_link_value]
              rw [hswap_t, ha1_key, ha1_value]
          · -- length
            simp only [length_amod]
            rw [ha2len, hmval]
          · -- capacity
            trivial
        · -- es and fs both nonempty
          have hd0e0 : d0 = e0 := by
            have hds2 := hds_eq
            rw [List.cons_append] at hds2
            exact (List.cons.inj hds2).1
          rw [List.getLast?_append_of_ne_nil _ (by simp), List.getLast?_cons_cons] at hnt2
          have hntmem_fs : nt ∈ f0 :: fs'' := List.mem_of_mem_getLast? (by rw [hnt2]; rfl)
          have hntm_ne : nt ≠ m := fun e => hmfs (e ▸ hntmem_fs)
          have hmnt_ne : m ≠ nt := fun e => hntm_ne e.symm
          have hnt_small : nt < m := hfs_small nt hntmem_fs
          rcases hp_last : (e0 :: es'').getLast? with _ | p
          · exact absurd (List.getLast?_eq_none_iff.mp hp_last) (by simp)
          have hpmem : p ∈ e0 :: es'' := List.mem_of_mem_getLast? (by rw [hp_last]; rfl)
          have hrel_pm : rel c.arena p m := hbnd_es p (by rw [hp_last]; rfl)
          have hp_small : p < m := hes_small p hpmem
          have hp_t : p ≠ t := hes_t p hpmem
          have hf0mem : f0 ∈ f0 :: fs'' := List.mem_cons_self _ _
          have hf0_small : f0 < m := hfs_small f0 hf0mem
          have hf0_t : f0 ≠ t := hfs_t f0 hf0mem
          have hrel_mf0 : rel c.arena m f0 := hrel_mf f0 rfl
          have hnext_m : (aget c.arena m).next = some f0 := hrel_mf0.1
          have hf0prev : (aget c.arena f0).prev = some m := hrel_mf0.2
          have hprev_m : (aget c.arena m).prev = some p := hrel_pm.2
          have hp_next : (aget c.arena p).next = some m := hrel_pm.1
          have hmv_prev :
              (aget (swapRemove (amod c.arena nt (fun nd => { nd with next := none })) t) t).prev
                = some p := by
            rw [hswap_t, ha1_prev, hprev_m]
          have hmv_next :
              (aget (swapRemove (amod c.arena nt (fun nd => { nd with next := none })) t) t).next
                = some f0 := by
            rw [hswap_t, aget_amod_ne _ _ _ _ hmnt_ne, hnext_m]
          have hmv_key :
              (aget (swapRemove (amod c.arena nt (fun nd => { nd with next := none })) t) t).key
                = (aget c.arena m).key := by
            rw [hswap_t, ha1_key]
          have hd0m : d0 ≠ m := by
            rw [hd0e0]
            exact fun e => hmes (e ▸ List.mem_cons_self e0 es'')
          have hcondH : ¬ c.head = some
              (swapRemove (amod c.arena nt (fun nd => { nd with next := none })) t).length := by
            rw [hd0head, ha2len]
            intro e
            exact hd0m (Option.some.inj e)
          have hcondT : ¬ (some nt : Option Nat) = some
              (swapRemove (amod c.arena nt (fun nd => { nd with next := none })) t).length := by
            rw [ha2len]
            intro e
            exact hntm_ne (Option.some.inj e)
          have hcondB :
              t < (swapRemove (amod c.arena nt (fun nd => { nd with next := none })) t).length := by
            rw [ha2len]
            omega
          unfold LruCache.remove_lru
          rw [ht_tail]
          simp only [hprev_t]
          rw [if_pos hcondB]
          simp only [hmv_prev, hmv_next, hmv_key]
          rw [if_neg hcondH, if_neg hcondT]
          refine ⟨(e0 :: es'') ++ t :: (f0 :: fs''), ⟨?_, ?_, ?_, ?_, ?_, ?_, ?_, ?_, ?_⟩, ?_, ?_, ?_⟩
          · -- perm
            simp only [length_amod, ha2len]
            exact hpermB
          · -- chain
            rw [List.chain'_append]
            refine ⟨?_, ?_, ?_⟩
            · refine chain'_congr_mem ?_ hches
              intro u hu w hw hrel
              obtain ⟨hn, hp⟩ := hrel
              have hu_small : u < m := hes_small u hu
              have hu_t : u ≠ t := hes_t u hu
              have hw_small : w < m := hes_small w hw
              have hw_t : w ≠ t := hes_t w hw
              have hw_f0 : w ≠ f0 := fun e => hdisj2 (e ▸ hw) hf0mem
              have hu_nt : u ≠ nt := fun e => hdisj2 (e ▸ hu) hntmem_fs
              refine ⟨?_, ?_⟩
              · simp only [aget_amod_keep_next]
                by_cases hup : u = p
                · exfalso
                  rw [hup, hp_next] at hn
                  exact hmes ((Option.some.inj hn) ▸ hw)
                · rw [aget_amod_ne _ _ _ _ hup, hswap_ne u hu_small hu_t,
                    aget_amod_ne _ _ _ _ hu_nt]
                  exact hn
              · rw [aget_amod_ne _ _ _ _ hw_f0]
                simp only [aget_amod_keep_prev]
                rw [hswap_ne w hw_small hw_t, ha1_prev]
                exact hp
            · rw [List.chain'_cons']
              refine ⟨?_, ?_⟩
              · intro y hy
                simp only [List.head?_cons, Option.mem_some_iff] at hy
                subst hy
                refine ⟨?_, ?_⟩
                · simp only [aget_amod_keep_next]
                  have htp : t ≠ p := fun e => hp_t e.symm
                  rw [aget_amod_ne _ _ _ _ htp, hswap_t, aget_amod_ne _ _ _ _ hmnt_ne,
                    hnext_m]
                · rw [aget_amod_self]
                  simp only [length_amod, ha2len]
                  exact hf0_small
              · refine chain'_congr_mem ?_ hchfs
                intro u hu w hw hrel
                obtain ⟨hn, hp⟩ := hrel
                have hu_small : u < m := hfs_small u hu
                have hu_t : u ≠ t := hfs_t u hu
                have hw_small : w < m := hfs_small w hw
                have hw_t : w ≠ t := hfs_t w hw
                have hu_p : u ≠ p := fun e => hdisj2 hpmem (by rw [← e]; exact hu)
                refine ⟨?_, ?_⟩
                · simp only [aget_amod_keep_next]
                  rw [aget_amod_ne _ _ _ _ hu_p, hswap_ne u hu_small hu_t]
                  by_cases hunt : u = nt
                  · exfalso
                    rw [hunt, hnt_next] at hn
                    exact htfs ((Option.some.inj hn) ▸ hw)
                  · rw [aget_amod_ne _ _ _ _ hunt]
                    exact hn
                · by_cases hwf : w = f0
                  · exfalso
                    rw [hwf, hf0prev] at hp
                    exact hmfs ((Option.some.inj hp) ▸ hu)
                  · rw [aget_amod_ne _ _ _ _ hwf]
                    simp only [aget_amod_keep_prev]
                    rw [hswap_ne w hw_small hw_t, ha1_prev]
                    exact hp
            · intro x hx w hw
              rw [hp_last] at hx
              rw [Option.mem_some_iff] at hx
              subst hx
              simp only [List.head?_cons, Option.mem_some_iff] at hw
              subst hw
              refine ⟨?_, ?_⟩
              · simp only [aget_amod_keep_next]
                rw [aget_amod_self]
                rw [ha2len]
                exact hp_small
              · have htf0 : t ≠ f0 := fun e => hf0_t e.symm
                rw [aget_amod_ne _ _ _ _ htf0]
                simp only [aget_amod_keep_prev]
                rw [hswap_t, ha1_prev, hprev_m]
          · -- fstPrev
            intro j hj
            simp only [List.cons_append, List.head?_cons, Option.some.injEq] at hj
            cases hj
            have he0mem : e0 ∈ e0 :: es'' := List.mem_cons_self _ _
            have he0f0 : e0 ≠ f0 := fun e => hdisj2 (e ▸ he0mem) hf0mem
            rw [aget_amod_ne _ _ _ _ he0f0]
            simp only [aget_amod_keep_prev]
            rw [hswap_ne e0 (hes_small e0 he0mem) (hes_t e0 he0mem), ha1_prev]
            exact h2.fstPrev e0 rfl
          · -- lstNext
            intro j hj
            rw [List.getLast?_append_of_ne_nil _ (by simp), List.getLast?_cons_cons,
              hnt2] at hj
            cases Option.some.inj hj
            have hnt_p : nt ≠ p := fun e => hdisj2 (by rw [e]; exact hpmem) hntmem_fs
            simp only [aget_amod_keep_next]
            rw [aget_amod_ne _ _ _ _ hnt_p, hswap_ne nt hnt_small hnt_t,
              aget_amod_self _ _ _ hntlt]
          · -- headEq
            rw [hd0head, hd0e0]
            simp
          · -- tailEq
            rw [List.getLast?_append_of_ne_nil _ (by simp), List.getLast?_cons_cons, hnt2]
          · -- mapsTo
            intro j hj
            simp only [length_amod, ha2len] at hj
            simp only [aget_amod_link_key]
            by_cases hjt : j = t
            · subst hjt
              rw [hmv_key, mapGet_mapInsert_self]
            · rw [hswap_ne j hj hjt, ha1_key]
              have hjm : j ≠ m := by omega
              have hkey_ne_m : (aget c.arena j).key ≠ (aget c.arena m).key :=
                fun e => hjm (h2.key_inj (by omega) hmlt e)
              have hkey_ne_t : (aget c.arena j).key ≠ (aget c.arena t).key :=
                fun e => hjt (h2.key_inj (by omega) htlt e)
              rw [mapGet_mapInsert_ne _ _ _ _ hkey_ne_m, mapGet_mapRemove_ne _ _ _ hkey_ne_t]
              exact h2.mapsTo j (by omega)
          · -- mapDom
            intro k j hk
            simp only [length_amod, ha2len]
            simp only [aget_amod_link_key]
            by_cases hkm : k = (aget c.arena m).key
            · subst hkm
              rw [mapGet_mapInsert_self] at hk
              cases Option.some.inj hk
              refine ⟨htm, ?_⟩
              rw [hmv_key]
            · rw [mapGet_mapInsert_ne _ _ _ _ hkm] at hk
              by_cases hkt : k = (aget c.arena t).key
              · rw [hkt, mapGet_mapRemove_self _ _ h2.mapNodup] at hk
                exact Option.noConfusion hk
              · rw [mapGet_mapRemove_ne _ _ _ hkt] at hk
                rcases h2.mapDom k j hk with ⟨hjl, hjk⟩
                have hjm : j ≠ m := fun e => hkm (by rw [← hjk, e])
                have hjt : j ≠ t := fun e => hkt (by rw [← hjk, e])
                refine ⟨by omega, ?_⟩
                rw [hswap_ne j (by omega) hjt, ha1_key]
                exact hjk
          · -- mapNodup
            exact nodupKeys_mapInsert _ _ _ (nodupKeys_mapRemove _ _ h2.mapNodup)
          · -- contents
            rw [hds_eq]
            simp only [absL, List.map_append]
            have hkv_ne : ∀ j, j < m → j ≠ t →
                ((aget (amod (amod (swapRemove
                      (amod c.arena nt (fun nd => { nd with next := none })) t) p
                    (fun nd => { nd with next := some t })) f0
                    (fun nd => { nd with prev := some t })) j).key,
                  (aget (amod (amod (swapRemove
                      (amod c.arena nt (fun nd => { nd with next := none })) t) p
                    (fun nd => { nd with next := some t })) f0
                    (fun nd => { nd with prev := some t })) j).value)
                  = ((aget c.arena j).key, (aget c.arena j).value) := by
              intro j hjm hjt
              simp only [aget_amod_link_key, aget_amod_link_value]
              rw [hswap_ne j hjm hjt, ha1_key, ha1_value]
            congr 1
            · refine List.map_congr_left ?_
              intro j hj
              exact hkv_ne j (hes_small j hj) (hes_t j hj)
            · simp only [List.map_cons]
              congr 1
              · simp only [aget_amod_link_key, aget_amod_link_value]
                rw [hswap_t, ha1_key, ha1_value]
              · congr 1
                · exact hkv_ne f0 hf0_small hf0_t
                · refine List.map_congr_left ?_
                  intro j hj
                  exact hkv_ne j (hfs_small j (List.mem_cons_of_mem _ hj))
                    (hfs_t j (List.mem_cons_of_mem _ hj))
          · -- length
            simp only [length_amod]
            rw [ha2len, hmval]
          · -- capacity
            trivial
    · -- subcase A : the tail already occupies the last physical slot
      have hteq : t = c.arena.length - 1 := by omega
      have hcond :
          ¬ t < (swapRemove (amod c.arena nt (fun nd => { nd with next := none })) t).length := by
        rw [ha2len]
        omega
      have hmem_small : ∀ j, j ∈ d0 :: ds' → j < c.arena.length - 1 := by
        intro j hj
        have hjl := h.mem_lt (List.mem_append_left _ hj)
        have hjt : j ≠ t := fun e => htds (e ▸ hj)
        omega
      have hmem_of_small : ∀ j, j < c.arena.length - 1 → j ∈ d0 :: ds' := by
        intro j hj
        have hjfull : j ∈ (d0 :: ds') ++ [t] := h.lt_mem (by omega)
        rcases List.mem_append.mp hjfull with hm | hm
        · exact hm
        · exfalso
          simp at hm
          omega
      have hswap : ∀ j, j ∈ d0 :: ds' →
          aget (swapRemove (amod c.arena nt (fun nd => { nd with next := none })) t) j
            = aget (amod c.arena nt (fun nd => { nd with next := none })) j := by
        intro j hj
        refine aget_swapRemove_ne _ _ _ ?_ (fun e => htds (e ▸ hj))
        rw [ha1len]
        exact hmem_small j hj
      unfold LruCache.remove_lru
      rw [ht_tail]
      simp only [hprev_t]
      rw [if_neg hcond]
      refine ⟨d0 :: ds', ⟨?_, ?_, ?_, ?_, ?_, ?_, ?_, ?_, ?_⟩, ?_, ?_, ?_⟩
      · -- perm
        rw [ha2len]
        have hp0 := h.perm
        rw [hlen, List.range_succ] at hp0
        have hp1 : ((d0 :: ds') ++ [t]).Perm (t :: (d0 :: ds')) := by
          simpa using @List.perm_middle Nat t (d0 :: ds') []
        have hp2 : (List.range (d0 :: ds').length ++ [(d0 :: ds').length]).Perm
            ((d0 :: ds').length :: List.range (d0 :: ds').length) := by
          simpa using @List.perm_middle Nat (d0 :: ds').length (List.range (d0 :: ds').length) []
        have hteq2 : t = (d0 :: ds').length := by
          rw [hteq, hlen]
          simp
        have hcore : ((d0 :: ds')).Perm (List.range (d0 :: ds').length) := by
          refine @List.Perm.cons_inv Nat t _ _ ?_
          refine hp1.symm.trans (hp0.trans ?_)
          rw [← hteq2]
          exact hteq2 ▸ hp2
        have hrw : c.arena.length - 1 = (d0 :: ds').length := by
          rw [hlen]
          simp
        rw [hrw]
        exact hcore
      · -- chain
        refine chain'_congr_mem ?_ hchds
        intro u hu w hw hrel
        obtain ⟨hn, hp⟩ := hrel
        refine ⟨?_, ?_⟩
        · rw [hswap u hu]
          by_cases hunt : u = nt
          · exfalso
            rw [hunt, hnt_next] at hn
            have htmem : t ∈ d0 :: ds' := (Option.some.inj hn) ▸ hw
            exact htds htmem
          · rw [aget_amod_ne _ _ _ _ hunt]
            exact hn
        · rw [hswap w hw]
          simp only [aget_amod_keep_prev]
          exact hp
      · -- fstPrev
        intro j hj
        simp only [List.head?_cons, Option.some.injEq] at hj
        cases hj
        rw [hswap d0 (List.mem_cons_self _ _)]
        simp only [aget_amod_keep_prev]
        exact h.fstPrev d0 rfl
      · -- lstNext
        intro j hj
        rw [hnt] at hj
        cases Option.some.inj hj
        rw [hswap nt hntmem, aget_amod_self _ _ _ hntlt]
      · -- headEq
        exact hd0head
      · -- tailEq
        rw [hnt]
      · -- mapsTo
        intro j hj
        rw [ha2len] at hj
        rw [hswap j (hmem_of_small j hj)]
        simp only [aget_amod_link_key]
        have hne : (aget c.arena j).key ≠ (aget c.arena t).key := by
          intro e
          exact absurd (h.key_inj (by omega) htlt e) (by omega)
        rw [mapGet_mapRemove_ne _ _ _ hne]
        exact h.mapsTo j (by omega)
      · -- mapDom
        intro k j hk
        by_cases hkt : k = (aget c.arena t).key
        · rw [hkt, mapGet_mapRemove_self _ _ h.mapNodup] at hk
          exact Option.noConfusion hk
        · rw [mapGet_mapRemove_ne _ _ _ hkt] at hk
          rcases h.mapDom k j hk with ⟨hjl, hjk⟩
          have hjt : j ≠ t := by
            intro e
            exact hkt (by rw [← hjk, e])
          have hjsmall : j < c.arena.length - 1 := by omega
          refine ⟨by rw [ha2len]; exact hjsmall, ?_⟩
          rw [hswap j (hmem_of_small j hjsmall)]
          simp only [aget_amod_link_key]
          exact hjk
      · -- mapNodup
        exact nodupKeys_mapRemove _ _ h.mapNodup
      · -- contents preserved
        simp only [absL]
        refine List.map_congr_left ?_
        intro j hj
        rw [hswap j hj]
        simp only [aget_amod_link_key, aget_amod_link_value]
      · -- length
        exact ha2len
      · -- capacity
        rfl

theorem wf_new (cap : Nat) : WF (LruCache.new cap : LruCache K V) [] := by
  refine ⟨?_, ?_, ?_, ?_, ?_, ?_, ?_, ?_, ?_⟩
  · simp [LruCache.new]
  · exact List.chain'_nil
  · intro i hi
    simp at hi
  · intro i hi
    simp at hi
  · rfl
  · rfl
  · intro i hi
    simp [LruCache.new] at hi
  · intro k i hk
    simp [LruCache.new, mapGet] at hk
  · simp [LruCache.new]

theorem get_miss {c : LruCache K V} {k : K} (h : mapGet c.map k = none) :
    c.get k = (none, c) := by
  simp [LruCache.get, h]

theorem get_hit {c : LruCache K V} {k : K} {i : Nat} (h : mapGet c.map k = some i) :
    c.get k = (some (aget (c.move_to_head i).arena i).value, c.move_to_head i) := by
  simp [LruCache.get, h]

theorem put_update_eq {c : LruCache K V} {k : K} {i : Nat} (v : V)
    (h : mapGet c.map k = some i) :
    c.put k v = LruCache.move_to_head
      { c with arena := amod c.arena i (fun nd => { nd with value := v }) } i := by
  simp [LruCache.put, h]

theorem put_fresh_eq {c : LruCache K V} {k : K} (v : V) (h : mapGet c.map k = none) :
    c.put k v =
      LruCache.insertNew (if c.capacity ≤ c.arena.length then c.remove_lru else c) k v := by
  simp [LruCache.put, h]

theorem wf_value_amod {c : LruCache K V} {is : List Nat} (h : WF c is) (i : Nat) (v : V) :
    WF { c with arena := amod c.arena i (fun nd => { nd with value := v }) } is := by
  refine ⟨?_, ?_, ?_, ?_, ?_, ?_, ?_, ?_, ?_⟩
  · simpa [length_amod] using h.perm
  · refine chain'_congr_mem ?_ h.chain
    intro u hu w hw hrel
    obtain ⟨hn, hp⟩ := hrel
    constructor
    · simp only [aget_amod_keep_next]
      exact hn
    · simp only [aget_amod_keep_prev]
      exact hp
  · intro j hj
    simp only [aget_amod_keep_prev]
    exact h.fstPrev j hj
  · intro j hj
    simp only [aget_amod_keep_next]
    exact h.lstNext j hj
  · exact h.headEq
  · exact h.tailEq
  · intro j hj
    simp only [length_amod] at hj
    simp only [aget_amod_link_key]
    exact h.mapsTo j hj
  · intro k' j hk
    simp only [length_amod]
    simp only [aget_amod_link_key]
    exact h.mapDom k' j hk
  · exact h.mapNodup

theorem put_update_wf {c : LruCache K V} {xs ys : List Nat} {i : Nat} {k : K} (v : V)
    (h : WF c (xs ++ i :: ys)) (hk : mapGet c.map k = some i) :
    WF (c.put k v) (i :: (xs ++ ys)) := by
  rw [put_update_eq v hk]
  exact mth_wf (wf_value_amod h i v)

theorem insertNew_capacity (c : LruCache K V) (k : K) (v : V) :
    (c.insertNew k v).capacity = c.capacity := by
  unfold LruCache.insertNew
  rcases c.head with _ | oh <;> rfl

theorem insertNew_len (c : LruCache K V) (k : K) (v : V) :
    (c.insertNew k v).arena.length = c.arena.length + 1 := by
  unfold LruCache.insertNew
  rcases c.head with _ | oh <;> simp [length_amod]

theorem insertNew_head (c : LruCache K V) (k : K) (v : V) :
    (c.insertNew k v).head = some c.arena.length := by
  unfold LruCache.insertNew
  rcases c.head with _ | oh <;> rfl

theorem insertNew_map (c : LruCache K V) (k : K) (v : V) :
    (c.insertNew k v).map = mapInsert c.map k c.arena.length := by
  unfold LruCache.insertNew
  rcases c.head with _ | oh <;> rfl

theorem insertNew_node {c : LruCache K V} {is : List Nat} (h : WF c is) (k : K) (v : V) :
    aget (c.insertNew k v).arena c.arena.length
      = { key := k, value := v, prev := none, next := c.head } := by
  unfold LruCache.insertNew
  rcases hh : c.head with _ | oh
  · simp only []
    exact aget_append_self _ _
  · simp only []
    have hohlt : oh < c.arena.length := by
      have hmem : oh ∈ is := by
        have := h.headEq
        rw [hh] at this
        cases is with
        | nil => simp at this
        | cons a l =>
          simp only [List.head?_cons] at this
          cases Option.some.inj this
          exact List.mem_cons_self _ _
      exact h.mem_lt hmem
    rw [aget_amod_ne _ _ _ _ (Ne.symm (Nat.ne_of_lt hohlt))]
    exact aget_append_self _ _

theorem insertNew_absL {c : LruCache K V} {is : List Nat} (h : WF c is) (k : K) (v : V) :
    absL (c.insertNew k v) (c.arena.length :: is) = (k, v) :: absL c is := by
  simp only [absL, List.map_cons]
  congr 1
  · rw [insertNew_node h k v]
  · refine List.map_congr_left ?_
    intro j hj
    have hjlt : j < c.arena.length := h.mem_lt hj
    unfold LruCache.insertNew
    rcases c.head with _ | oh
    · simp only []
      rw [aget_append_lt _ _ _ hjlt]
    · simp only [aget_amod_link_key, aget_amod_link_value]
      rw [aget_append_lt _ _ _ hjlt]

theorem mapGet_none_of_not_mem_absL {c : LruCache K V} {is : List Nat} (h : WF c is)
    {k : K} (hk : ¬ ∃ i, i ∈ is ∧ (aget c.arena i).key = k) : mapGet c.map k = none := by
  cases hm : mapGet c.map k with
  | none => rfl
  | some i =>
    exfalso
    rcases h.mapDom k i hm with ⟨hlt, hkey⟩
    exact hk ⟨i, h.lt_mem hlt, hkey⟩

theorem remove_lru_fresh {c : LruCache K V} {ds : List Nat} {t : Nat} {is2 : List Nat}
    {k : K} (h : WF c (ds ++ [t])) (h2 : WF c.remove_lru is2)
    (habs : absL c.remove_lru is2 = absL c ds)
    (hk : mapGet c.map k = none) : mapGet (c.remove_lru).map k = none := by
  refine mapGet_none_of_not_mem_absL h2 ?_
  rintro ⟨i, hi, hkey⟩
  have hpair : ((aget (c.remove_lru).arena i).key, (aget (c.remove_lru).arena i).value)
      ∈ absL c.remove_lru is2 := by
    simp only [absL, List.mem_map]
    exact ⟨i, hi, rfl⟩
  rw [habs] at hpair
  simp only [absL, List.mem_map] at hpair
  rcases hpair with ⟨j, hj, hpj⟩
  have hkeyj : (aget c.arena j).key = k := by
    rw [← hkey]
    exact congrArg Prod.fst hpj
  have hmt := h.mapsTo j (h.mem_lt (List.mem_append_left _ hj))
  rw [hkeyj, hk] at hmt
  exact Option.noConfusion hmt

theorem put_reads_back {c : LruCache K V} {is : List Nat} (h : WF c is) (k : K) (v : V) :
    ∃ i, (c.put k v).head = some i ∧ mapGet (c.put k v).map k = some i ∧
      (aget (c.put k v).arena i).key = k ∧ (aget (c.put k v).arena i).value = v := by
  cases hk : mapGet c.map k with
  | some i =>
    rcases h.mapDom k i hk with ⟨hilt, hikey⟩
    rcases List.append_of_mem (h.lt_mem hilt) with ⟨xs, ys, rfl⟩
    refine ⟨i, ?_, ?_, ?_, ?_⟩
    · rw [put_update_eq v hk]
      exact (mth_wf (wf_value_amod h i v)).headEq
    · rw [put_update_eq v hk, mth_map]
      exact hk
    · rw [put_update_eq v hk, mth_key]
      simp only [aget_amod_link_key]
      exact hikey
    · rw [put_update_eq v hk, mth_value]
      rw [aget_amod_self _ _ _ hilt]
  | none =>
    rw [put_fresh_eq v hk]
    by_cases hfull : c.capacity ≤ c.arena.length
    · rw [if_pos hfull]
      rcases List.eq_nil_or_concat is with rfl | ⟨ds, t, rfl⟩
      · have htail : c.tail = none := by simpa using h.tailEq
        have hrl : c.remove_lru = c := by
          unfold LruCache.remove_lru
          rw [htail]
        rw [hrl]
        refine ⟨c.arena.length, insertNew_head c k v, ?_, ?_, ?_⟩
        · rw [insertNew_map]
          exact mapGet_mapInsert_self _ _ _
        · rw [insertNew_node h k v]
        · rw [insertNew_node h k v]
      · rw [List.concat_eq_append] at h
        rcases remove_lru_wf h with ⟨is2, h2, habs, hlen2, hcap2⟩
        refine ⟨(c.remove_lru).arena.length, insertNew_head _ k v, ?_, ?_, ?_⟩
        · rw [insertNew_map]
          exact mapGet_mapInsert_self _ _ _
        · rw [insertNew_node h2 k v]
        · rw [insertNew_node h2 k v]
    · rw [if_neg hfull]
      refine ⟨c.arena.length, insertNew_head c k v, ?_, ?_, ?_⟩
      · rw [insertNew_map]
        exact mapGet_mapInsert_self _ _ _
      · rw [insertNew_node h k v]
      · rw [insertNew_node h k v]

theorem mth_head_facts {c : LruCache K V} {xs ys : List Nat} {i : Nat}
    (h : WF c (xs ++ i :: ys)) :
    (c.move_to_head i).head = some i ∧
    (aget (c.move_to_head i).arena i).prev = none ∧
    (∀ oh, c.head = some oh → oh ≠ i →
      (aget (c.move_to_head i).arena i).next = some oh) := by
  have w := mth_wf h
  refine ⟨w.headEq, w.fstPrev i rfl, ?_⟩
  intro oh hoh hne
  rcases xs with _ | ⟨x0, xs'⟩
  · exfalso
    have hhd := h.headEq
    rw [hoh] at hhd
    simp only [List.nil_append, List.head?_cons] at hhd
    exact hne (Option.some.inj hhd)
  · have hx0 : oh = x0 := by
      have hhd := h.headEq
      rw [hoh] at hhd
      simp only [List.cons_append, List.head?_cons] at hhd
      exact Option.some.inj hhd
    subst hx0
    have hc := w.chain
    rw [List.chain'_cons'] at hc
    exact (hc.1 oh rfl).1

/-- The state a well-formed cache must keep to absorb any sequence of
`put` operations: positive capacity, length within capacity, and the
structural invariant. -/
def Good (c : LruCache K V) : Prop :=
  0 < c.capacity ∧ c.arena.length ≤ c.capacity ∧ ∃ is, WF c is

theorem good_new {cap : Nat} (hcap : 0 < cap) :
    Good (LruCache.new cap : LruCache K V) :=
  ⟨hcap, by simp [LruCache.new], ⟨[], wf_new cap⟩⟩

theorem good_put {c : LruCache K V} (hg : Good c) (k : K) (v : V) : Good (c.put k v) := by
  rcases hg with ⟨hcap, hle, ⟨is, h⟩⟩
  cases hk : mapGet c.map k with
  | some i =>
    rcases h.mapDom k i hk with ⟨hilt, -⟩
    rcases List.append_of_mem (h.lt_mem hilt) with ⟨xs, ys, rfl⟩
    refine ⟨?_, ?_, ⟨_, put_update_wf v h hk⟩⟩
    · rw [put_update_eq v hk, mth_capacity]
      exact hcap
    · rw [put_update_eq v hk, mth_len, mth_capacity]
      simp only [length_amod]
      exact hle
  | none =>
    rw [put_fresh_eq v hk]
    by_cases hfull : c.capacity ≤ c.arena.length
    · rw [if_pos hfull]
      rcases List.eq_nil_or_concat is with rfl | ⟨ds, t, rfl⟩
      · exfalso
        have hlen0 : c.arena.length = 0 := by simpa using h.len_is.symm
        omega
      · rw [List.concat_eq_append] at h
        rcases remove_lru_wf h with ⟨is2, h2, habs, hlen2, hcap2⟩
        have hk2 : mapGet (c.remove_lru).map k = none := remove_lru_fresh h h2 habs hk
        have hlen1 : 0 < c.arena.length := by
          have hl := h.len_is
          simp at hl
          omega
        refine ⟨?_, ?_, ⟨_, insertNew_wf h2 k v hk2⟩⟩
        · rw [insertNew_capacity, hcap2]
          exact hcap
        · rw [insertNew_len, insertNew_capacity, hcap2, hlen2]
          omega
    · rw [if_neg hfull]
      refine ⟨?_, ?_, ⟨_, insertNew_wf h k v hk⟩⟩
      · rw [insertNew_capacity]
        exact hcap
      · rw [insertNew_len, insertNew_capacity]
        omega

theorem good_putList {c : LruCache K V} (hg : Good c) (ps : List (K × V)) :
    Good (putList c ps) := by
  induction ps generalizing c with
  | nil => exact hg
  | cons p ps ih => exact ih (good_put hg p.1 p.2)

theorem walkNextAux_none (a : List (Node K V)) (fuel : Nat) :
    walkNextAux a fuel none = [] := by
  cases fuel <;> rfl

theorem walkPrevAux_none (a : List (Node K V)) (fuel : Nat) :
    walkPrevAux a fuel none = [] := by
  cases fuel <;> rfl

theorem walkNextAux_chain (a : List (Node K V)) (is : List Nat)
    (hch : List.Chain' (rel a) is)
    (hlast : ∀ i, is.getLast? = some i → (aget a i).next = none) :
    ∀ fuel, is.length ≤ fuel → walkNextAux a fuel is.head? = is := by
  induction is with
  | nil =>
    intro fuel _
    exact walkNextAux_none a fuel
  | cons i rest ih =>
    intro fuel hfuel
    cases fuel with
    | zero => simp at hfuel
    | succ f =>
      simp only [List.head?_cons]
      show i :: walkNextAux a f (aget a i).next = i :: rest
      congr 1
      rw [List.chain'_cons'] at hch
      cases rest with
      | nil =>
        have hn : (aget a i).next = none := hlast i (by simp)
        rw [hn]
        exact walkNextAux_none a f
      | cons j rest2 =>
        have hn : (aget a i).next = some j := (hch.1 j rfl).1
        rw [hn]
        have hj : (j :: rest2).head? = some j := rfl
        rw [← hj]
        exact ih hch.2
          (fun x hx => hlast x (by rw [List.getLast?_cons_cons]; exact hx))
          f (by simpa using Nat.le_of_succ_le_succ hfuel)

theorem walkPrevAux_chain (a : List (Node K V)) (is : List Nat)
    (hch : List.Chain' (rel a) is)
    (hfst : ∀ i, is.head? = some i → (aget a i).prev = none) :
    ∀ fuel, is.length ≤ fuel → walkPrevAux a fuel is.getLast? = is.reverse := by
  induction is using List.reverseRecOn with
  | nil =>
    intro fuel _
    exact walkPrevAux_none a fuel
  | append_singleton ds i ih =>
    intro fuel hfuel
    rw [List.getLast?_concat]
    cases fuel with
    | zero =>
      simp at hfuel
    | succ f =>
      show i :: walkPrevAux a f (aget a i).prev = (ds ++ [i]).reverse
      rw [List.reverse_append]
      simp only [List.reverse_cons, List.reverse_nil, List.nil_append, List.cons_append]
      congr 1
      rw [List.chain'_append] at hch
      cases ds with
      | nil =>
        have hp : (aget a i).prev = none := hfst i rfl
        rw [hp]
        exact walkPrevAux_none a f
      | cons d0 ds2 =>
        rcases hld : (d0 :: ds2).getLast? with _ | ld
        · exact absurd (List.getLast?_eq_none_iff.mp hld) (by simp)
        have hrel_ld : rel a ld i := hch.2.2 ld (by rw [hld]; rfl) i rfl
        have hp : (aget a i).prev = some ld := hrel_ld.2
        rw [hp, ← hld]
        refine ih hch.1 ?_ f ?_
        · intro x hx
          exact hfst x hx
        · have hf2 := hfuel
          simp only [List.length_append, List.length_cons, List.length_nil] at hf2
          simp only [List.length_cons]
          omega

theorem orderIdx_eq {c : LruCache K V} {is : List Nat} (h : WF c is) :
    orderIdx c = is := by
  unfold orderIdx
  rw [h.headEq]
  exact walkNextAux_chain c.arena is h.chain h.lstNext c.arena.length
    (Nat.le_of_eq h.len_is)

theorem orderKV_eq {c : LruCache K V} {is : List Nat} (h : WF c is) :
    orderKV c = absL c is := by
  unfold orderKV absL
  rw [orderIdx_eq h]

theorem orderKeys_eq {c : LruCache K V} {is : List Nat} (h : WF c is) :
    orderKeys c = is.map (fun i => (aget c.arena i).key) := by
  unfold orderKeys
  rw [orderIdx_eq h]

theorem mth_absL (c : LruCache K V) (i : Nat) (J : List Nat) :
    absL (c.move_to_head i) J = absL c J := by
  unfold absL
  refine List.map_congr_left ?_
  intro j _
  rw [mth_key, mth_value]

theorem put_update_absL {c : LruCache K V} {xs ys : List Nat} {i : Nat} {k : K} (v : V)
    (h : WF c (xs ++ i :: ys)) (hk : mapGet c.map k = some i) :
    absL (c.put k v) (i :: (xs ++ ys)) = (k, v) :: (absL c (xs ++ ys)) := by
  rcases h.mapDom k i hk with ⟨hilt, hikey⟩
  rcases nodup_middle_parts h.nodup with ⟨hixs, hiys, -, -, -⟩
  rw [put_update_eq v hk, mth_absL]
  simp only [absL, List.map_cons]
  congr 1
  · simp only [aget_amod_link_key]
    rw [aget_amod_self _ _ _ hilt, hikey]
  · refine List.map_congr_left ?_
    intro j hj
    have hji : j ≠ i := by
      intro e
      subst e
      rcases List.mem_append.mp hj with hm | hm
      · exact hixs hm
      · exact hiys hm
    rw [aget_amod_ne _ _ _ _ hji]

theorem absL_keys_nodup {c : LruCache K V} {is : List Nat} (h : WF c is) :
    ((absL c is).map Prod.fst).Nodup := by
  have : (absL c is).map Prod.fst = is.map (fun i => (aget c.arena i).key) := by
    simp [absL, List.map_map]
  rw [this]
  refine List.Nodup.map_on ?_ h.nodup
  intro x hx y hy hxy
  exact h.key_inj (h.mem_lt hx) (h.mem_lt hy) hxy

end CacheLemmas

/-! Facts about the textual persistence codec. -/

section Persistence

theorem splitOnce_key (k v : List Char) (hk : '=' ∉ k) :
    splitOnce '=' (k ++ '=' :: v) = some (k, v) := by
  induction k with
  | nil => simp [splitOnce]
  | cons ch k' ih =>
    have hch : ¬ ch = '=' := fun e => hk (by rw [e]; exact List.mem_cons_self _ _)
    have hk' : '=' ∉ k' := fun hm => hk (List.mem_cons_of_mem _ hm)
    simp only [List.cons_append, splitOnce, if_neg hch, List.append_eq]
    rw [ih hk']

theorem splitOnce_eqfree {sep : Char} :
    ∀ {l k v : List Char}, splitOnce sep l = some (k, v) → sep ∉ k := by
  intro l
  induction l with
  | nil =>
    intro k v h
    simp [splitOnce] at h
  | cons ch l' ih =>
    intro k v h
    by_cases hch : ch = sep
    · simp only [splitOnce, if_pos hch] at h
      cases h
      simp
    · simp only [splitOnce, if_neg hch] at h
      cases hs : splitOnce sep l' with
      | none => rw [hs] at h; exact Option.noConfusion h
      | some p =>
        rw [hs] at h
        cases h
        intro hmem
        rcases List.mem_cons.mp hmem with he | hm
        · exact hch he.symm
        · exact ih hs hm

theorem linesAux_no_newline (l : List Char) (hl : '\n' ∉ l) :
    ∀ s acc, linesAux (l ++ s) acc = linesAux s (l.reverse ++ acc) := by
  induction l with
  | nil =>
    intro s acc
    rfl
  | cons ch l' ih =>
    intro s acc
    have hch : ¬ ch = '\n' := fun e => hl (by rw [e]; exact List.mem_cons_self _ _)
    have hl' : '\n' ∉ l' := fun hm => hl (List.mem_cons_of_mem _ hm)
    simp only [List.cons_append, linesAux, if_neg hch, List.append_eq, ih hl']
    have hacc : l'.reverse ++ (ch :: acc) = (ch :: l').reverse ++ acc := by simp
    rw [hacc]

theorem dropCR_reverse_eq (l : List Char) (h : l.getLast? ≠ some '\r') :
    dropCR l.reverse = l.reverse := by
  cases hl : l.reverse with
  | nil => rfl
  | cons c rest =>
    have hhead : l.getLast? = some c := by
      rw [← List.head?_reverse, hl]
      rfl
    have hc : ¬ c = '\r' := fun e => h (by rw [hhead, e])
    simp [dropCR, hc]

theorem linesOf_flatten (ls : List (List Char))
    (h : ∀ l ∈ ls, '\n' ∉ l ∧ l.getLast? ≠ some '\r') :
    linesOf ((ls.map (fun l => l ++ ['\n'])).flatten) = ls := by
  induction ls with
  | nil => rfl
  | cons l ls' ih =>
    simp only [List.map_cons, List.flatten_cons]
    have hl := h l (List.mem_cons_self _ _)
    unfold linesOf
    rw [List.append_assoc, linesAux_no_newline l hl.1]
    show linesAux ('\n' :: (List.map (fun l => l ++ ['\n']) ls').flatten) (l.reverse ++ []) = l :: ls'
    have hstep : ∀ (R acc : List Char),
        linesAux ('\n' :: R) acc = (dropCR acc).reverse :: linesAux R [] := by
      intro R acc
      simp [linesAux]
    rw [hstep]
    have hacc0 : l.reverse ++ ([] : List Char) = l.reverse := by simp
    rw [hacc0, dropCR_reverse_eq l hl.2, List.reverse_reverse]
    congr 1
    exact ih (fun x hx => h x (List.mem_cons_of_mem _ hx))

theorem loadAux_eq_putList (c0 : LruCache (List Char) (List Char)) :
    ∀ prs : List (List Char × List Char), (∀ p ∈ prs, '=' ∉ p.1) →
      (prs.map (fun p => p.1 ++ '=' :: p.2)).foldl
        (fun c line => match splitOnce '=' line with
          | some (k, v) => c.put k v
          | none => c) c0 = putList c0 prs := by
  intro prs
  induction prs generalizing c0 with
  | nil => intro _; rfl
  | cons p prs' ih =>
    intro hp
    simp only [List.map_cons, List.foldl_cons]
    rw [splitOnce_key p.1 p.2 (hp p (List.mem_cons_self _ _))]
    exact ih _ (fun q hq => hp q (List.mem_cons_of_mem _ hq))

end Persistence

section MoreCacheLemmas

variable {K V : Type} [DecidableEq K] [Inhabited K] [Inhabited V]

theorem put_fresh_nofull {c : LruCache K V} {is : List Nat} (h : WF c is) {k : K} (v : V)
    (hk : mapGet c.map k = none) (hlt : c.arena.length < c.capacity) :
    WF (c.put k v) (c.arena.length :: is) ∧
    absL (c.put k v) (c.arena.length :: is) = (k, v) :: absL c is ∧
    (c.put k v).arena.length = c.arena.length + 1 ∧
    (c.put k v).capacity = c.capacity := by
  have hif : ¬ c.capacity ≤ c.arena.length := by omega
  rw [put_fresh_eq v hk, if_neg hif]
  exact ⟨insertNew_wf h k v hk, insertNew_absL h k v,
    insertNew_len c k v, insertNew_capacity c k v⟩

theorem put_keys_subset {c : LruCache K V} {is : List Nat} (h : WF c is) (k : K) (v : V) :
    ∃ is', WF (c.put k v) is' ∧
      ∀ k', k' ∈ (absL (c.put k v) is').map Prod.fst →
        k' = k ∨ k' ∈ (absL c is).map Prod.fst := by
  cases hk : mapGet c.map k with
  | some i =>
    rcases h.mapDom k i hk with ⟨hilt, -⟩
    rcases List.append_of_mem (h.lt_mem hilt) with ⟨xs, ys, rfl⟩
    refine ⟨_, put_update_wf v h hk, ?_⟩
    intro k' hk'
    rw [put_update_absL v h hk] at hk'
    simp only [List.map_cons, List.mem_cons] at hk'
    rcases hk' with rfl | hm
    · exact Or.inl rfl
    · right
      simp only [absL, List.map_map, List.mem_map] at hm ⊢
      rcases hm with ⟨j, hj, hjk⟩
      refine ⟨j, ?_, hjk⟩
      rcases List.mem_append.mp hj with hm2 | hm2
      · exact List.mem_append_left _ hm2
      · exact List.mem_append_right _ (List.mem_cons_of_mem _ hm2)
  | none =>
    rw [put_fresh_eq v hk]
    by_cases hfull : c.capacity ≤ c.arena.length
    · rw [if_pos hfull]
      rcases List.eq_nil_or_concat is with rfl | ⟨ds, t, rfl⟩
      · have htail : c.tail = none := by simpa using h.tailEq
        have hrl : c.remove_lru = c := by
          unfold LruCache.remove_lru
          rw [htail]
        rw [hrl]
        refine ⟨_, insertNew_wf h k v hk, ?_⟩
        intro k' hk'
        rw [insertNew_absL h k v] at hk'
        simp only [List.map_cons, List.mem_cons] at hk'
        rcases hk' with rfl | hm
        · exact Or.inl rfl
        · exact Or.inr hm
      · rw [List.concat_eq_append] at h ⊢
        rcases remove_lru_wf h with ⟨is2, h2, habs, -, -⟩
        have hk2 := remove_lru_fresh h h2 habs hk
        refine ⟨_, insertNew_wf h2 k v hk2, ?_⟩
        intro k' hk'
        rw [insertNew_absL h2 k v] at hk'
        simp only [List.map_cons, List.mem_cons] at hk'
        rcases hk' with rfl | hm
        · exact Or.inl rfl
        · right
          rw [habs] at hm
          simp only [absL, List.map_map, List.mem_map] at hm ⊢
          rcases hm with ⟨j, hj, hjk⟩
          exact ⟨j, List.mem_append_left _ hj, hjk⟩
    · rw [if_neg hfull]
      refine ⟨_, insertNew_wf h k v hk, ?_⟩
      intro k' hk'
      rw [insertNew_absL h k v] at hk'
      simp only [List.map_cons, List.mem_cons] at hk'
      rcases hk' with rfl | hm
      · exact Or.inl rfl
      · exact Or.inr hm

theorem rebuild_aux :
    ∀ (ps : List (K × V)) (c : LruCache K V) (is : List Nat),
      WF c is → c.arena.length + ps.length ≤ c.capacity →
      ((absL c is).map Prod.fst ++ ps.map Prod.fst).Nodup →
      ∃ is', WF (putList c ps) is' ∧
        absL (putList c ps) is' = ps.reverse ++ absL c is := by
  intro ps
  induction ps with
  | nil =>
    intro c is h _ _
    exact ⟨is, h, by simp [putList]⟩
  | cons p ps' ih =>
    intro c is h hlen hnd
    obtain ⟨k, v⟩ := p
    simp only [List.map_cons] at hnd
    have hnd2 : (k :: ((absL c is).map Prod.fst ++ ps'.map Prod.fst)).Nodup :=
      List.nodup_middle.mp hnd
    rcases List.nodup_cons.mp hnd2 with ⟨hknotin, hndrest⟩
    have hkabs : k ∉ (absL c is).map Prod.fst :=
      fun hm => hknotin (List.mem_append_left _ hm)
    have hk : mapGet c.map k = none := by
      refine mapGet_none_of_not_mem_absL h ?_
      rintro ⟨i, hi, hkey⟩
      exact hkabs ((memKeys_absL k).mpr ⟨i, hi, hkey⟩)
    have hlt : c.arena.length < c.capacity := by
      simp only [List.length_cons] at hlen
      omega
    rcases put_fresh_nofull h v hk hlt with ⟨w, habs, hlen', hcap'⟩
    have hstep : putList c ((k, v) :: ps') = putList (c.put k v) ps' := rfl
    rw [hstep]
    have hlen2 : (c.put k v).arena.length + ps'.length ≤ (c.put k v).capacity := by
      rw [hlen', hcap']
      simp only [List.length_cons] at hlen
      omega
    have hnd3 : ((absL (c.put k v) (c.arena.length :: is)).map Prod.fst
        ++ ps'.map Prod.fst).Nodup := by
      rw [habs]
      simpa using hnd2
    rcases ih (c.put k v) (c.arena.length :: is) w hlen2 hnd3 with ⟨is', w', habs'⟩
    refine ⟨is', w', ?_⟩
    rw [habs', habs]
    simp

end MoreCacheLemmas

/-! Helper lemmas shared by the claim theorems. -/

section ClaimHelpers

variable {K V : Type} [DecidableEq K] [Inhabited K] [Inhabited V]

theorem present_iff_keys {c : LruCache K V} {is : List Nat} (h : WF c is) (k : K) :
    present c k ↔ k ∈ (absL c is).map Prod.fst :=
  (present_iff h k).trans (memKeys_absL k).symm

theorem wf_put {c : LruCache K V} {is : List Nat} (h : WF c is) (k : K) (v : V) :
    ∃ is2, WF (c.put k v) is2 := by
  cases hk : mapGet c.map k with
  | some i =>
    rcases h.mapDom k i hk with ⟨hilt, -⟩
    rcases List.append_of_mem (h.lt_mem hilt) with ⟨xs, ys, rfl⟩
    exact ⟨_, put_update_wf v h hk⟩
  | none =>
    rw [put_fresh_eq v hk]
    by_cases hfull : c.capacity ≤ c.arena.length
    · rw [if_pos hfull]
      rcases List.eq_nil_or_concat is with rfl | ⟨ds, t, hc⟩
      · have htail : c.tail = none := by simpa using h.tailEq
        have hrl : c.remove_lru = c := by
          unfold LruCache.remove_lru
          rw [htail]
        rw [hrl]
        exact ⟨_, insertNew_wf h k v hk⟩
      · rw [List.concat_eq_append] at hc
        subst hc
        rcases remove_lru_wf h with ⟨is2, h2, habs, -, -⟩
        exact ⟨_, insertNew_wf h2 k v (remove_lru_fresh h h2 habs hk)⟩
    · rw [if_neg hfull]
      exact ⟨_, insertNew_wf h k v hk⟩

theorem wf_get {c : LruCache K V} {is : List Nat} (h : WF c is) (k : K) :
    ∃ is2, WF (c.get k).2 is2 := by
  cases hk : mapGet c.map k with
  | none =>
    rw [get_miss hk]
    exact ⟨is, h⟩
  | some i =>
    rcases h.mapDom k i hk with ⟨hilt, -⟩
    rcases List.append_of_mem (h.lt_mem hilt) with ⟨xs, ys, rfl⟩
    rw [get_hit hk]
    exact ⟨_, mth_wf h⟩

theorem wf_remove_lru {c : LruCache K V} {is : List Nat} (h : WF c is) :
    ∃ is2, WF c.remove_lru is2 := by
  rcases List.eq_nil_or_concat is with rfl | ⟨ds, t, hc⟩
  · have htail : c.tail = none := by simpa using h.tailEq
    have hrl : c.remove_lru = c := by
      unfold LruCache.remove_lru
      rw [htail]
    rw [hrl]
    exact ⟨[], h⟩
  · rw [List.concat_eq_append] at hc
    subst hc
    rcases remove_lru_wf h with ⟨is2, h2, -⟩
    exact ⟨is2, h2⟩

theorem remove_lru_capacity (c : LruCache K V) : c.remove_lru.capacity = c.capacity := by
  unfold LruCache.remove_lru
  cases c.tail with
  | none => rfl
  | some t =>
    dsimp only
    split
    · rfl
    · rfl

theorem put_capacity (c : LruCache K V) (k : K) (v : V) :
    (c.put k v).capacity = c.capacity := by
  cases hk : mapGet c.map k with
  | some i =>
    rw [put_update_eq v hk]
    exact mth_capacity _ _
  | none =>
    rw [put_fresh_eq v hk, insertNew_capacity]
    by_cases hfull : c.capacity ≤ c.arena.length
    · rw [if_pos hfull, remove_lru_capacity]
    · rw [if_neg hfull]

theorem putList_capacity (c : LruCache K V) (ps : List (K × V)) :
    (putList c ps).capacity = c.capacity := by
  induction ps generalizing c with
  | nil => rfl
  | cons p ps ih =>
    show (putList (c.put p.1 p.2) ps).capacity = c.capacity
    rw [ih, put_capacity]

end ClaimHelpers

theorem loadLines_keys_aux :
    ∀ (ls : List (List Char)) (c : LruCache (List Char) (List Char)) (is : List Nat),
      WF c is → (∀ k, k ∈ (absL c is).map Prod.fst → '=' ∉ k) →
      ∃ is2, WF (ls.foldl (fun c line =>
            match splitOnce '=' line with
            | some (k, v) => c.put k v
            | none => c) c) is2 ∧
        ∀ k, k ∈ (absL (ls.foldl (fun c line =>
            match splitOnce '=' line with
            | some (k, v) => c.put k v
            | none => c) c) is2).map Prod.fst → '=' ∉ k := by
  intro ls
  induction ls with
  | nil =>
    intro c is h hk
    exact ⟨is, h, hk⟩
  | cons l ls2 ih =>
    intro c is h hk
    simp only [List.foldl_cons]
    cases hs : splitOnce '=' l with
    | none =>
      simp only [hs]
      exact ih c is h hk
    | some p =>
      obtain ⟨k0, v0⟩ := p
      simp only [hs]
      have hkfree : '=' ∉ k0 := splitOnce_eqfree hs
      rcases put_keys_subset h k0 v0 with ⟨is2, h2, hsub⟩
      refine ih (c.put k0 v0) is2 h2 ?_
      intro k2 hk2
      rcases hsub k2 hk2 with rfl | hm
      · exact hkfree
      · exact hk k2 hm

theorem save_load_roundtrip {c : LruCache (List Char) (List Char)} {is : List Nat}
    (h : WF c is) (hle : c.arena.length ≤ c.capacity)
    (hkeys : ∀ p ∈ absL c is, '=' ∉ p.1 ∧ '\n' ∉ p.1 ∧ '\n' ∉ p.2 ∧
      p.2.getLast? ≠ some '\r') :
    ∃ is', WF (loadLines c.capacity (linesOf (saveFile c))) is' ∧
      absL (loadLines c.capacity (linesOf (saveFile c))) is' = absL c is := by
  have hsave : saveFile c =
      (((absL c is).reverse.map (fun p => p.1 ++ '=' :: p.2)).map
        (fun l => l ++ ['\n'])).flatten := by
    unfold saveFile
    rw [h.tailEq, walkPrevAux_chain c.arena is h.chain h.fstPrev c.arena.length
      (Nat.le_of_eq h.len_is)]
    simp only [absL, ← List.map_reverse, List.map_map]
    congr 1
  have hlines : linesOf (saveFile c)
      = (absL c is).reverse.map (fun p => p.1 ++ '=' :: p.2) := by
    rw [hsave]
    refine linesOf_flatten _ ?_
    intro l hl
    simp only [List.mem_map] at hl
    rcases hl with ⟨p, hp, rfl⟩
    have hp2 := hkeys p (List.mem_reverse.mp hp)
    constructor
    · intro hmem
      rcases List.mem_append.mp hmem with hm | hm
      · exact hp2.2.1 hm
      · rcases List.mem_cons.mp hm with he | hm2
        · exact absurd he (by decide)
        · exact hp2.2.2.1 hm2
    · rcases List.eq_nil_or_concat p.2 with hv | ⟨v2, cch, hv⟩
      · rw [hv, List.getLast?_concat]
        decide
      · rw [List.concat_eq_append] at hv
        have hsh : p.1 ++ '=' :: p.2 = (p.1 ++ '=' :: v2) ++ [cch] := by
          rw [hv]
          simp
        rw [hsh, List.getLast?_concat]
        intro he
        apply hp2.2.2.2
        rw [hv, List.getLast?_concat]
        exact he
  have hload : loadLines c.capacity (linesOf (saveFile c))
      = putList (LruCache.new c.capacity) (absL c is).reverse := by
    rw [hlines]
    unfold loadLines
    exact loadAux_eq_putList _ _ (fun p hp => (hkeys p (List.mem_reverse.mp hp)).1)
  have h2 : (absL (LruCache.new c.capacity : LruCache (List Char) (List Char)) []) = [] := rfl
  have hndrev : ((absL (LruCache.new c.capacity : LruCache (List Char) (List Char)) []).map
      Prod.fst ++ (absL c is).reverse.map Prod.fst).Nodup := by
    have h1 := absL_keys_nodup h
    rw [h2, List.map_nil, List.nil_append, List.map_reverse, List.nodup_reverse]
    exact h1
  have hlenc : (LruCache.new c.capacity : LruCache (List Char) (List Char)).arena.length
      + (absL c is).reverse.length
      ≤ (LruCache.new c.capacity : LruCache (List Char) (List Char)).capacity := by
    have h3 : (LruCache.new c.capacity : LruCache (List Char) (List Char)).arena = [] := rfl
    have h4 : (LruCache.new c.capacity : LruCache (List Char) (List Char)).capacity
        = c.capacity := rfl
    rw [h3, h4]
    simp only [List.length_nil, List.length_reverse, Nat.zero_add]
    have h5 : (absL c is).length = is.length := by simp [absL]
    rw [h5, h.len_is]
    exact hle
  rw [hload]
  rcases rebuild_aux (absL c is).reverse (LruCache.new c.capacity) [] (wf_new _) hlenc hndrev
    with ⟨is', w', habs'⟩
  refine ⟨is', w', ?_⟩
  rw [habs', List.reverse_reverse, h2, List.append_nil]


/-! The claim theorems. -/

/-- C1: when the cache holds exactly `capacity` entries (capacity positive)
and the key being `put` is absent, the index list has the form `ds ++ [t]`
with `t` the slot `tail` points at, and the keys present after the `put`
are exactly the new key together with the old keys except the tail slot's
key: precisely the least recently touched entry is evicted and no other. -/
theorem C1_evicts_exactly_tail {K V : Type} [DecidableEq K] [Inhabited K] [Inhabited V]
    {c : LruCache K V} {is : List Nat} (h : WF c is) (k : K) (v : V)
    (hfull : c.len = c.capacity) (hpos : 0 < c.capacity) (hk : ¬ present c k) :
    ∃ ds t, is = ds ++ [t] ∧ c.tail = some t ∧
      ∀ k2, present (c.put k v) k2 ↔
        (k2 = k ∨ (present c k2 ∧ k2 ≠ (aget c.arena t).key)) := by
  have hmg : mapGet c.map k = none := by
    cases hmg : mapGet c.map k with
    | none => rfl
    | some i => exact absurd (by simp [present, hmg]) hk
  have hlenc : c.arena.length = c.capacity := hfull
  have hne : is ≠ [] := by
    intro e
    subst e
    have h0 : ([] : List Nat).length = c.arena.length := h.len_is
    simp at h0
    omega
  rcases List.eq_nil_or_concat is with rfl | ⟨ds, t, hc⟩
  · exact absurd rfl hne
  rw [List.concat_eq_append] at hc
  subst hc
  have htail : c.tail = some t := by
    rw [h.tailEq]
    exact List.getLast?_concat _
  refine ⟨ds, t, rfl, htail, ?_⟩
  have hcle : c.capacity ≤ c.arena.length := Nat.le_of_eq hlenc.symm
  rcases remove_lru_wf h with ⟨is2, h2, habs, -, -⟩
  intro k2
  rw [put_fresh_eq v hmg, if_pos hcle]
  have hins : present (LruCache.insertNew c.remove_lru k v) k2 ↔
      (k2 = k ∨ present c.remove_lru k2) := by
    unfold present
    rw [insertNew_map]
    by_cases he : k2 = k
    · subst he
      rw [mapGet_mapInsert_self]
      simp
    · rw [mapGet_mapInsert_ne _ _ _ _ he]
      simp [he, present]
  rw [hins]
  have hkeyrl : present c.remove_lru k2 ↔
      (present c k2 ∧ k2 ≠ (aget c.arena t).key) := by
    rw [present_iff_keys h2, present_iff_keys h, habs]
    have hsplit : (absL c (ds ++ [t])).map Prod.fst
        = (absL c ds).map Prod.fst ++ [(aget c.arena t).key] := by
      simp [absL]
    have hnd := absL_keys_nodup h
    rw [hsplit] at hnd ⊢
    rcases List.nodup_append.mp hnd with ⟨-, -, hdis⟩
    constructor
    · intro hm
      refine ⟨List.mem_append_left _ hm, ?_⟩
      intro he
      exact hdis hm (by rw [he]; exact List.mem_singleton_self _)
    · rintro ⟨hm2, hne2⟩
      rcases List.mem_append.mp hm2 with hm3 | hm3
      · exact hm3
      · exact absurd (List.mem_singleton.mp hm3) hne2
  rw [hkeyrl]

theorem C1_witness :
    ∃ ds t, ([0] : List Nat) = ds ++ [t] ∧
      ((LruCache.new 1 : LruCache Nat Nat).put 0 0).tail = some t ∧
      ∀ k2, present (((LruCache.new 1 : LruCache Nat Nat).put 0 0).put 1 5) k2 ↔
        (k2 = 1 ∨ (present ((LruCache.new 1 : LruCache Nat Nat).put 0 0) k2 ∧
          k2 ≠ (aget ((LruCache.new 1 : LruCache Nat Nat).put 0 0).arena t).key)) :=
  C1_evicts_exactly_tail (put_fresh_nofull (wf_new 1) 0 rfl (by decide)).1 1 5
    (by decide) (by decide) (by decide)

/-- C2: the construction `new` is well formed on the empty index list, and
`get`, `put` and `remove_lru` each carry the structural invariant `WF`
(directory exactly matching the arena with no duplicates or dangling slots,
and a single doubly linked chain over all slots whose ends are `head` and
`tail`) to the resulting state; `len` reads the entry count without
touching the state. -/
theorem C2_invariant_preservation {K V : Type} [DecidableEq K] [Inhabited K]
    [Inhabited V] :
    (∀ cap : Nat, WF (LruCache.new cap : LruCache K V) []) ∧
    (∀ (c : LruCache K V) (is : List Nat) (k : K),
      WF c is → ∃ is2, WF (c.get k).2 is2) ∧
    (∀ (c : LruCache K V) (is : List Nat) (k : K) (v : V),
      WF c is → ∃ is2, WF (c.put k v) is2) ∧
    (∀ c : LruCache K V, c.len = c.arena.length) ∧
    (∀ (c : LruCache K V) (is : List Nat),
      WF c is → ∃ is2, WF c.remove_lru is2) :=
  ⟨fun cap => wf_new cap,
   fun _ _ k h => wf_get h k,
   fun _ _ k v h => wf_put h k v,
   fun _ => rfl,
   fun _ _ h => wf_remove_lru h⟩

theorem C2_witness :
    ∃ is2, WF ((LruCache.new 2 : LruCache Nat Nat).put 0 5) is2 :=
  C2_invariant_preservation.2.2.1 (LruCache.new 2) [] 0 5 (wf_new 2)

/-- C3 (amended): for a well-formed cache within capacity whose keys
contain no `=`, whose keys and values contain no newline, and whose values
do not end in a carriage return, saving and loading back with the same
capacity succeeds and reproduces the same head-to-tail key/value sequence,
values exactly preserved.  The carriage-return condition is necessary: a
value ending in `'\r'` puts a CRLF into the saved file and
`BufRead::lines` strips both characters on reload (see the
counterexample). -/
theorem C3_save_load_roundtrip {c : LruCache (List Char) (List Char)} {is : List Nat}
    (h : WF c is) (hle : c.arena.length ≤ c.capacity)
    (hkeys : ∀ p ∈ absL c is, '=' ∉ p.1 ∧ '\n' ∉ p.1 ∧ '\n' ∉ p.2 ∧
      p.2.getLast? ≠ some '\r') :
    ∃ c2, new_persistent c.capacity (Except.ok (saveFile c)) = Except.ok c2 ∧
      orderKV c2 = orderKV c := by
  rcases save_load_roundtrip h hle hkeys with ⟨is2, w2, habs⟩
  refine ⟨loadLines c.capacity (linesOf (saveFile c)), rfl, ?_⟩
  rw [orderKV_eq w2, orderKV_eq h, habs]

theorem C3_witness :
    ∃ c2, new_persistent
        ((LruCache.new 2 : LruCache (List Char) (List Char)).put ['a'] ['b']).capacity
        (Except.ok (saveFile
          ((LruCache.new 2 : LruCache (List Char) (List Char)).put ['a'] ['b'])))
        = Except.ok c2 ∧
      orderKV c2 = orderKV
        ((LruCache.new 2 : LruCache (List Char) (List Char)).put ['a'] ['b']) :=
  C3_save_load_roundtrip (put_fresh_nofull (wf_new 2) ['b'] rfl (by decide)).1
    (by decide) (by decide)

/-- C3 counterexample: a cache whose single entry is key `a`, value `b\r`
satisfies every hypothesis of the original claim (no `=` in the key, no
newline in key or value), yet the trailing `'\r'` merges with the written
`'\n'` into a CRLF that `BufRead::lines` strips: the reloaded value is
`b`, not the original `b\r`. -/
theorem C3_cex_trailing_cr :
    new_persistent 2 (Except.ok (saveFile
        ((LruCache.new 2 : LruCache (List Char) (List Char)).put
          ['a'] ['b', '\r'])))
      = Except.ok (loadLines 2 (linesOf (saveFile
        ((LruCache.new 2 : LruCache (List Char) (List Char)).put
          ['a'] ['b', '\r'])))) ∧
    orderKV (loadLines 2 (linesOf (saveFile
        ((LruCache.new 2 : LruCache (List Char) (List Char)).put
          ['a'] ['b', '\r']))))
      = [(['a'], ['b'])] ∧
    orderKV ((LruCache.new 2 : LruCache (List Char) (List Char)).put
          ['a'] ['b', '\r'])
      = [(['a'], ['b', '\r'])] :=
  ⟨rfl, by decide, by decide⟩

/-- C4: for a key `k` bound to slot `i`, after `get k` and after `put k v`
the head is `i`, slot `i` still holds key `k` with `prev = none`, and if the
old head held a different key it is the new head's immediate successor. -/
theorem C4_promotes_to_head {K V : Type} [DecidableEq K] [Inhabited K] [Inhabited V]
    {c : LruCache K V} {is : List Nat} {k : K} {i : Nat}
    (h : WF c is) (hk : mapGet c.map k = some i) (v : V) :
    ((c.get k).2.head = some i ∧ (aget (c.get k).2.arena i).key = k ∧
      (aget (c.get k).2.arena i).prev = none ∧
      ∀ oh, c.head = some oh → (aget c.arena oh).key ≠ k →
        (aget (c.get k).2.arena i).next = some oh) ∧
    ((c.put k v).head = some i ∧ (aget (c.put k v).arena i).key = k ∧
      (aget (c.put k v).arena i).prev = none ∧
      ∀ oh, c.head = some oh → (aget c.arena oh).key ≠ k →
        (aget (c.put k v).arena i).next = some oh) := by
  rcases h.mapDom k i hk with ⟨hilt, hikey⟩
  rcases List.append_of_mem (h.lt_mem hilt) with ⟨xs, ys, hxs⟩
  subst hxs
  have hget : c.get k = (some (aget (c.move_to_head i).arena i).value, c.move_to_head i) :=
    get_hit hk
  have hmf := mth_head_facts h
  have hoh_ne : ∀ oh, c.head = some oh → (aget c.arena oh).key ≠ k → oh ≠ i := by
    intro oh hoh hkey he
    subst he
    exact hkey hikey
  constructor
  · rw [hget]
    refine ⟨hmf.1, ?_, hmf.2.1, ?_⟩
    · rw [mth_key]
      exact hikey
    · intro oh hoh hkey
      exact hmf.2.2 oh hoh (hoh_ne oh hoh hkey)
  · rw [put_update_eq v hk]
    have h2 : WF { c with arena := amod c.arena i (fun nd => { nd with value := v }) }
        (xs ++ i :: ys) := wf_value_amod h i v
    have hmf2 := mth_head_facts h2
    refine ⟨hmf2.1, ?_, hmf2.2.1, ?_⟩
    · rw [mth_key]
      simp only [aget_amod_link_key]
      exact hikey
    · intro oh hoh hkey
      refine hmf2.2.2 oh hoh ?_
      exact hoh_ne oh hoh hkey

theorem C4_witness :
    ((((LruCache.new 2 : LruCache Nat Nat).put 0 5).get 0).2.head = some 0 ∧
      (aget (((LruCache.new 2 : LruCache Nat Nat).put 0 5).get 0).2.arena 0).key = 0 ∧
      (aget (((LruCache.new 2 : LruCache Nat Nat).put 0 5).get 0).2.arena 0).prev
        = none ∧
      ∀ oh, ((LruCache.new 2 : LruCache Nat Nat).put 0 5).head = some oh →
        (aget ((LruCache.new 2 : LruCache Nat Nat).put 0 5).arena oh).key ≠ 0 →
        (aget (((LruCache.new 2 : LruCache Nat Nat).put 0 5).get 0).2.arena 0).next
          = some oh) ∧
    ((((LruCache.new 2 : LruCache Nat Nat).put 0 5).put 0 7).head = some 0 ∧
      (aget (((LruCache.new 2 : LruCache Nat Nat).put 0 5).put 0 7).arena 0).key = 0 ∧
      (aget (((LruCache.new 2 : LruCache Nat Nat).put 0 5).put 0 7).arena 0).prev
        = none ∧
      ∀ oh, ((LruCache.new 2 : LruCache Nat Nat).put 0 5).head = some oh →
        (aget ((LruCache.new 2 : LruCache Nat Nat).put 0 5).arena oh).key ≠ 0 →
        (aget (((LruCache.new 2 : LruCache Nat Nat).put 0 5).put 0 7).arena 0).next
          = some oh) :=
  C4_promotes_to_head (put_fresh_nofull (wf_new 2) 5 rfl (by decide)).1 (by decide) 7

/-- C5: starting from `new cap` with `cap > 0`, after any number of `put`
operations of any sequence the entry count stays at most the capacity. -/
theorem C5_len_le_capacity {K V : Type} [DecidableEq K] [Inhabited K] [Inhabited V]
    (cap : Nat) (hcap : 0 < cap) (ps : List (K × V)) (n : Nat) :
    (putList (LruCache.new cap : LruCache K V) (ps.take n)).len ≤ cap := by
  have hg := good_putList (good_new hcap) (ps.take n)
  have h2 := hg.2.1
  rw [putList_capacity] at h2
  exact h2

theorem C5_witness :
    (putList (LruCache.new 1 : LruCache Nat Nat)
      ([(0, 0), (1, 1), (2, 2)].take 2)).len ≤ 1 :=
  C5_len_le_capacity 1 (by decide) [(0, 0), (1, 1), (2, 2)] 2

/-- C6 (amended): `new_persistent` ignores every kind of open failure, not
just a missing file: for any open error it still returns `Ok` with an empty
cache of the requested capacity; no error value is ever propagated. -/
theorem C6_open_error_still_ok (cap : Nat) (e : IOErr) :
    new_persistent cap (Except.error e) = Except.ok (LruCache.new cap) := rfl

/-- C6 counterexample to the claimed propagation: a permission-denied open
failure does not produce an `Err`; the call returns `Ok` with an empty
cache. -/
theorem C6_cex_permission_denied_ok :
    new_persistent 3 (Except.error IOErr.permissionDenied)
      = Except.ok (LruCache.new 3) := rfl

/-- C7 (amended): after the load loop, no key containing `=` is ever
present: a saved entry whose key contains `=` is not reproduced on reload.
Values containing `=` are unaffected (see the counterexample). -/
theorem C7_eq_key_never_reloaded (cap : Nat) (ls : List (List Char))
    (k : List Char) (hk : '=' ∈ k) : ¬ present (loadLines cap ls) k := by
  rcases loadLines_keys_aux ls (LruCache.new cap) [] (wf_new cap)
      (by intro k0 hk0; simp [absL] at hk0) with ⟨is2, w2, hkeys⟩
  intro hp
  have hm := (present_iff_keys w2 k).mp hp
  exact hkeys k hm hk

theorem C7_witness :
    ('=' ∈ (['a', '=', 'b'] : List Char)) ∧
    ¬ present (loadLines 2 [['x', '=', 'y']]) ['a', '=', 'b'] :=
  ⟨by decide, C7_eq_key_never_reloaded 2 [['x', '=', 'y']] ['a', '=', 'b'] (by decide)⟩

/-- C7 counterexample to the claimed corruption for values: a cache whose
single entry has a value containing `=` saves and reloads to exactly the
same head-to-tail key/value sequence. -/
theorem C7_cex_value_eq_roundtrips :
    new_persistent 2 (Except.ok (saveFile
        ((LruCache.new 2 : LruCache (List Char) (List Char)).put
          ['a'] ['b', '=', 'c'])))
      = Except.ok (loadLines 2 (linesOf (saveFile
        ((LruCache.new 2 : LruCache (List Char) (List Char)).put
          ['a'] ['b', '=', 'c'])))) ∧
    orderKV (loadLines 2 (linesOf (saveFile
        ((LruCache.new 2 : LruCache (List Char) (List Char)).put
          ['a'] ['b', '=', 'c']))))
      = orderKV ((LruCache.new 2 : LruCache (List Char) (List Char)).put
          ['a'] ['b', '=', 'c']) :=
  ⟨rfl, by decide⟩

/-- C8: the walkthrough of the spec: from an empty capacity-3 cache,
touching A,B,C,D,B,A,E (get, then `put key key` on a miss) produces the
stated head-to-tail orders after each step, B hits, the second A misses,
and the final cache has exactly E,A,B in that order with length 3 and C
and D absent. -/
theorem C8_walkthrough :
    orderKeys (runKeys (LruCache.new 3 : LruCache Char Char) ['A']) = ['A'] ∧
    orderKeys (runKeys (LruCache.new 3 : LruCache Char Char) ['A', 'B'])
      = ['B', 'A'] ∧
    orderKeys (runKeys (LruCache.new 3 : LruCache Char Char) ['A', 'B', 'C'])
      = ['C', 'B', 'A'] ∧
    orderKeys (runKeys (LruCache.new 3 : LruCache Char Char) ['A', 'B', 'C', 'D'])
      = ['D', 'C', 'B'] ∧
    orderKeys (runKeys (LruCache.new 3 : LruCache Char Char)
      ['A', 'B', 'C', 'D', 'B']) = ['B', 'D', 'C'] ∧
    orderKeys (runKeys (LruCache.new 3 : LruCache Char Char)
      ['A', 'B', 'C', 'D', 'B', 'A']) = ['A', 'B', 'D'] ∧
    orderKeys (runKeys (LruCache.new 3 : LruCache Char Char)
      ['A', 'B', 'C', 'D', 'B', 'A', 'E']) = ['E', 'A', 'B'] ∧
    ((runKeys (LruCache.new 3 : LruCache Char Char)
      ['A', 'B', 'C', 'D']).get 'B').1.isSome = true ∧
    ((runKeys (LruCache.new 3 : LruCache Char Char)
      ['A', 'B', 'C', 'D', 'B']).get 'A').1.isSome = false ∧
    (runKeys (LruCache.new 3 : LruCache Char Char)
      ['A', 'B', 'C', 'D', 'B', 'A', 'E']).len = 3 ∧
    present (runKeys (LruCache.new 3 : LruCache Char Char)
      ['A', 'B', 'C', 'D', 'B', 'A', 'E']) 'E' ∧
    present (runKeys (LruCache.new 3 : LruCache Char Char)
      ['A', 'B', 'C', 'D', 'B', 'A', 'E']) 'A' ∧
    present (runKeys (LruCache.new 3 : LruCache Char Char)
      ['A', 'B', 'C', 'D', 'B', 'A', 'E']) 'B' ∧
    ¬ present (runKeys (LruCache.new 3 : LruCache Char Char)
      ['A', 'B', 'C', 'D', 'B', 'A', 'E']) 'C' ∧
    ¬ present (runKeys (LruCache.new 3 : LruCache Char Char)
      ['A', 'B', 'C', 'D', 'B', 'A', 'E']) 'D' := by
  decide

/-- C9: `get` on an absent key returns `none` and the state whole and
unchanged: same capacity, map, arena, head and tail. -/
theorem C9_get_miss_noop {K V : Type} [DecidableEq K] [Inhabited K] [Inhabited V]
    (c : LruCache K V) (k : K) (hk : ¬ present c k) :
    c.get k = (none, c) := by
  cases hmg : mapGet c.map k with
  | none => exact get_miss hmg
  | some i => exact absurd (by simp [present, hmg]) hk

theorem C9_witness :
    ¬ present (LruCache.new 2 : LruCache Nat Nat) 0 ∧
    (LruCache.new 2 : LruCache Nat Nat).get 0 = (none, LruCache.new 2) :=
  ⟨by decide, C9_get_miss_noop _ _ (by decide)⟩

/-- C10: immediately after `put k v`, a `get k` returns `some v`, on both
the overwrite path and the fresh-insert path (with or without eviction). -/
theorem C10_put_then_get {K V : Type} [DecidableEq K] [Inhabited K] [Inhabited V]
    {c : LruCache K V} {is : List Nat} (h : WF c is) (k : K) (v : V) :
    ((c.put k v).get k).1 = some v := by
  rcases put_reads_back h k v with ⟨i, -, hmap, -, hval⟩
  rw [get_hit hmap]
  show some (aget ((c.put k v).move_to_head i).arena i).value = some v
  rw [mth_value, hval]

theorem C10_witness :
    (((LruCache.new 2 : LruCache Nat Nat).put 0 5).get 0).1 = some 5 :=
  C10_put_then_get (wf_new 2) 0 5

end CacheRust
